import Mathlib

/-!
# Verification of the route-optimizer (`main.py`)

A shallow embedding of the core of the repository: the `CityGraph` store, the
single-criterion Dijkstra solver `find_optimal_path`, the orchestrator
`get_all_optimal_routes` and the compromise selector `find_compromise_route`.

Python dictionaries are embedded as association lists (`List (κ × ν)`) with
Python's semantics: lookup finds the unique binding, assignment overwrites in
place or appends a fresh binding at the end.  `float('inf')` distances live in
`ℕ∞`.  Edge weights are natural numbers, following the data model (all three
weights are non-negative integers).  A raised `KeyError` is represented by
`none`; mutation of the graph store (the `defaultdict` adjacency) is made
explicit by returning the post-call graph.
-/

/-! ## Python dictionaries as association lists -/

/-- Python `d.get(k)` / `d[k]`-lookup: the value of the unique binding of `k`. -/
def dget {κ ν : Type} [DecidableEq κ] : List (κ × ν) → κ → Option ν
  | [], _ => none
  | (a, b) :: t, k => if k = a then some b else dget t k

/-- Lookup with a default value. -/
def dgetD {κ ν : Type} [DecidableEq κ] (d : List (κ × ν)) (k : κ) (v : ν) : ν :=
  (dget d k).getD v

/-- Python `d[k] = v`: overwrite the binding in place, or append a new one. -/
def dset {κ ν : Type} [DecidableEq κ] : List (κ × ν) → κ → ν → List (κ × ν)
  | [], k, v => [(k, v)]
  | (a, b) :: t, k, v => if k = a then (a, v) :: t else (a, b) :: dset t k v

/-- The keys of a dictionary, in insertion order. -/
def dkeys {κ ν : Type} (d : List (κ × ν)) : List κ := d.map Prod.fst

theorem dget_dset_self {κ ν : Type} [DecidableEq κ] (d : List (κ × ν)) (k : κ) (v : ν) :
    dget (dset d k v) k = some v := by
  induction d with
  | nil => simp [dget, dset]
  | cons p t ih =>
      obtain ⟨a, b⟩ := p
      by_cases h : k = a
      · simp [dget, dset, h]
      · simp [dget, dset, h, ih]

theorem dget_dset_ne {κ ν : Type} [DecidableEq κ] (d : List (κ × ν)) (k k' : κ) (v : ν)
    (h : k' ≠ k) : dget (dset d k v) k' = dget d k' := by
  induction d with
  | nil => simp [dget, dset, h]
  | cons p t ih =>
      obtain ⟨a, b⟩ := p
      by_cases hka : k = a
      · subst hka
        simp [dget, dset, h]
      · by_cases hk'a : k' = a
        · simp [dget, dset, hka, hk'a]
        · simp [dget, dset, hka, hk'a, ih]

theorem dget_isSome_dset {κ ν : Type} [DecidableEq κ] (d : List (κ × ν)) (k k' : κ) (v : ν)
    (h : (dget d k').isSome) : (dget (dset d k v) k').isSome := by
  by_cases hk : k' = k
  · subst hk; simp [dget_dset_self]
  · rwa [dget_dset_ne _ _ _ _ hk]

theorem length_dset {κ ν : Type} [DecidableEq κ] (d : List (κ × ν)) (k : κ) (v : ν) :
    d.length ≤ (dset d k v).length := by
  induction d with
  | nil => simp [dset]
  | cons p t ih =>
      obtain ⟨a, b⟩ := p
      by_cases h : k = a
      · simp [dset, h]
      · simpa [dset, h] using ih

theorem dget_mem_keys {κ ν : Type} [DecidableEq κ] {d : List (κ × ν)} {k : κ} {v : ν}
    (h : dget d k = some v) : k ∈ dkeys d := by
  induction d with
  | nil => simp [dget] at h
  | cons p t ih =>
      obtain ⟨a, b⟩ := p
      by_cases hk : k = a
      · simp [dkeys, hk]
      · simp only [dget, hk, if_false] at h
        simpa [dkeys] using Or.inr (ih h)

theorem dget_eq_none_of_not_mem {κ ν : Type} [DecidableEq κ] {d : List (κ × ν)} {k : κ}
    (h : k ∉ dkeys d) : dget d k = none := by
  cases hd : dget d k with
  | none => rfl
  | some v => exact absurd (dget_mem_keys hd) h

theorem mem_of_dget_eq_some {κ ν : Type} [DecidableEq κ] {d : List (κ × ν)} {k : κ} {v : ν}
    (h : dget d k = some v) : (k, v) ∈ d := by
  induction d with
  | nil => simp [dget] at h
  | cons p t ih =>
      obtain ⟨a, b⟩ := p
      rw [dget] at h
      split at h
      · rename_i heq
        subst heq
        cases h
        exact List.mem_cons_self _ _
      · exact List.mem_cons_of_mem _ (ih h)

theorem dget_eq_some_of_mem_nodup {κ ν : Type} [DecidableEq κ] {d : List (κ × ν)} {k : κ} {v : ν}
    (hd : (dkeys d).Nodup) (h : (k, v) ∈ d) : dget d k = some v := by
  induction d with
  | nil => simp at h
  | cons p t ih =>
      obtain ⟨a, b⟩ := p
      simp only [dkeys, List.map_cons, List.nodup_cons] at hd
      rcases List.mem_cons.mp h with hm | hm
      · cases hm
        simp [dget]
      · have hka : k ≠ a := by
          intro hx
          subst hx
          exact hd.1 (List.mem_map.mpr ⟨(k, v), hm, rfl⟩)
        simp only [dget, if_neg hka]
        exact ih hd.2 hm

/-! ## Edges, weights, totals -/

/-- An adjacency entry `(neighbor, distance, time, cost)` of `self.graph`. -/
structure Edge where
  neighbor : Int
  dist : ℕ
  time : ℕ
  cost : ℕ
deriving DecidableEq

/-- The 3-tuple `(расстояние, время, стоимость)` of accumulated totals. -/
abbrev Totals := ℕ × ℕ × ℕ

/-- `params = (dist, time, cost)` of an edge, as in line 62 of `main.py`. -/
def Edge.params (e : Edge) : Totals := (e.dist, e.time, e.cost)

/-- `params[criterion]`: the selected weight of an edge. -/
def Edge.w (e : Edge) (c : Fin 3) : ℕ := [e.dist, e.time, e.cost].get c

/-- Componentwise addition of totals (lines 69–71 of `main.py`). -/
def tadd (a b : Totals) : Totals := (a.1 + b.1, a.2.1 + b.2.1, a.2.2 + b.2.2)

/-- The selected component of a totals triple. -/
def tsel (t : Totals) (c : Fin 3) : ℕ := [t.1, t.2.1, t.2.2].get c

theorem tsel_tadd (a b : Totals) (c : Fin 3) : tsel (tadd a b) c = tsel a c + tsel b c := by
  fin_cases c <;> rfl

theorem tsel_params (e : Edge) (c : Fin 3) : tsel e.params c = e.w c := by
  fin_cases c <;> rfl

/-! ## The graph store `CityGraph` -/

/-- Python `str.strip()`: remove surrounding whitespace. -/
def pyStrip (s : String) : String :=
  String.mk (((s.toList.dropWhile Char.isWhitespace).reverse.dropWhile Char.isWhitespace).reverse)

/-- The `CityGraph` class: `cities`, `name_to_id` and the `defaultdict(list)`
adjacency `graph`, all as insertion-ordered dictionaries. -/
structure CityGraph where
  cities : List (Int × String)
  name_to_id : List (String × Int)
  graph : List (Int × List Edge)
deriving DecidableEq

namespace CityGraph

/-- `CityGraph.__init__`. -/
def empty : CityGraph := ⟨[], [], []⟩

/-- `add_city`. -/
def add_city (g : CityGraph) (city_id : Int) (name : String) : CityGraph :=
  let name := pyStrip name
  { g with cities := dset g.cities city_id name,
           name_to_id := dset g.name_to_id name city_id }

/-- `self.graph[k].append(e)` on the `defaultdict(list)`. -/
def dappend (d : List (Int × List Edge)) (k : Int) (e : Edge) : List (Int × List Edge) :=
  match d with
  | [] => [(k, [e])]
  | (a, b) :: t => if k = a then (a, b ++ [e]) :: t else (a, b) :: dappend t k e

/-- `add_road`: append the edge to both endpoints' adjacency lists. -/
def add_road (g : CityGraph) (id1 id2 : Int) (distance time cost : ℕ) : CityGraph :=
  { g with graph := dappend (dappend g.graph id1 ⟨id2, distance, time, cost⟩)
                      id2 ⟨id1, distance, time, cost⟩ }

/-- `get_id_by_name`. -/
def get_id_by_name (g : CityGraph) (name : String) : Option Int :=
  dget g.name_to_id (pyStrip name)

/-- `get_name_by_id`. -/
def get_name_by_id (g : CityGraph) (city_id : Int) : String :=
  dgetD g.cities city_id ""

/-- The adjacency list of a node: `self.graph[n]` read-only (missing ⇒ `[]`). -/
def adj (g : CityGraph) (n : Int) : List Edge := dgetD g.graph n []

/-- Well-formedness of the adjacency store.  Every graph built through
`add_road` satisfies it: keys are unique (Python dicts) and every edge target
is itself a key (roads are recorded on both endpoints). -/
def WFadj (g : CityGraph) : Prop :=
  (dkeys g.graph).Nodup ∧ ∀ p ∈ g.graph, ∀ e ∈ p.2, e.neighbor ∈ dkeys g.graph

/-- Symmetry of the adjacency store: each recorded edge has a reverse twin with
the same weights, as produced by `add_road`. -/
def Symm (g : CityGraph) : Prop :=
  ∀ p ∈ g.graph, ∀ e ∈ p.2, (⟨p.1, e.dist, e.time, e.cost⟩ : Edge) ∈ g.adj e.neighbor

end CityGraph

/-! ## The solver state and the heap -/

/-- The mutable state of `find_optimal_path`: the adjacency dictionary (the
`defaultdict` can grow on reads), the dictionaries `distances` (`dd`), `prev`
(`pd`), `total_params` (`td`), and the `heapq` list. -/
structure DState where
  gd : List (Int × List Edge)
  dd : List (Int × ℕ∞)
  pd : List (Int × Option Int)
  td : List (Int × Totals)
  heap : List (ℕ × Int)
deriving DecidableEq

/-- The distance map of a state as a total function (`⊤` = `float('inf')`,
also the value used off the dictionary's key set). -/
def DState.dmap (s : DState) : Int → ℕ∞ := fun n => dgetD s.dd n ⊤

/-- Strict comparison of heap entries: Python's lexicographic `<` on the
`(dist, node)` tuples. -/
def pairLt (a b : ℕ × Int) : Prop := a.1 < b.1 ∨ (a.1 = b.1 ∧ a.2 < b.2)

/-- Reflexive comparison of heap entries. -/
def pairLe (a b : ℕ × Int) : Prop := a.1 < b.1 ∨ (a.1 = b.1 ∧ a.2 ≤ b.2)

instance (a b : ℕ × Int) : Decidable (pairLt a b) := by unfold pairLt; infer_instance

theorem pairLe_refl (a : ℕ × Int) : pairLe a a := Or.inr ⟨rfl, le_refl _⟩

theorem pairLe_trans {a b c : ℕ × Int} (h1 : pairLe a b) (h2 : pairLe b c) : pairLe a c := by
  unfold pairLe at *
  omega

theorem pairLe_of_not_lt {a b : ℕ × Int} (h : ¬ pairLt b a) : pairLe a b := by
  unfold pairLt at h
  unfold pairLe
  omega

theorem pairLe_fst {a b : ℕ × Int} (h : pairLe a b) : a.1 ≤ b.1 := by
  unfold pairLe at h
  omega

/-- The binary operation underlying minimum extraction (ties keep the earlier
element, which is irrelevant here since entries are pairwise distinct). -/
def pmin (a b : ℕ × Int) : ℕ × Int := if pairLt b a then b else a

theorem pmin_cases (a b : ℕ × Int) : pmin a b = a ∨ pmin a b = b := by
  unfold pmin
  split
  · exact Or.inr rfl
  · exact Or.inl rfl

theorem pmin_le_left (a b : ℕ × Int) : pairLe (pmin a b) a := by
  unfold pmin
  split
  · rename_i h
    unfold pairLt at h
    unfold pairLe
    omega
  · exact pairLe_refl a

theorem pmin_le_right (a b : ℕ × Int) : pairLe (pmin a b) b := by
  unfold pmin
  split
  · exact pairLe_refl b
  · rename_i h
    exact pairLe_of_not_lt h

/-- Minimum of a nonempty collection of heap entries. -/
def heapMin (a : ℕ × Int) (l : List (ℕ × Int)) : ℕ × Int := l.foldl pmin a

theorem heapMin_mem (a : ℕ × Int) (l : List (ℕ × Int)) : heapMin a l ∈ a :: l := by
  induction l generalizing a with
  | nil => exact List.mem_cons_self _ _
  | cons b t ih =>
      have h := ih (pmin a b)
      unfold heapMin at h ⊢
      simp only [List.foldl_cons]
      rcases List.mem_cons.mp h with h | h
      · rcases pmin_cases a b with hc | hc <;> rw [h, hc]
        · exact List.mem_cons_self _ _
        · exact List.mem_cons_of_mem _ (List.mem_cons_self _ _)
      · exact List.mem_cons_of_mem _ (List.mem_cons_of_mem _ h)

theorem heapMin_le (a : ℕ × Int) (l : List (ℕ × Int)) :
    ∀ x ∈ a :: l, pairLe (heapMin a l) x := by
  induction l generalizing a with
  | nil =>
      intro x hx
      rcases List.mem_cons.mp hx with rfl | h
      · exact pairLe_refl _
      · cases h
  | cons b t ih =>
      intro x hx
      have ihm := ih (pmin a b)
      unfold heapMin at ihm ⊢
      simp only [List.foldl_cons]
      rcases List.mem_cons.mp hx with rfl | hx'
      · exact pairLe_trans (ihm _ (List.mem_cons_self _ _)) (pmin_le_left _ b)
      rcases List.mem_cons.mp hx' with rfl | hx''
      · exact pairLe_trans (ihm _ (List.mem_cons_self _ _)) (pmin_le_right a _)
      · exact ihm _ (List.mem_cons_of_mem _ hx'')

/-- `heapq.heappop`: remove and return the least entry.  Tuples compare
lexicographically; in this program all live entries are pairwise distinct, so
the least entry is unique and the binary-heap pop returns exactly it. -/
def heapPop : List (ℕ × Int) → Option ((ℕ × Int) × List (ℕ × Int))
  | [] => none
  | a :: t => some (heapMin a t, (a :: t).erase (heapMin a t))

theorem heapPop_none_iff (hs : List (ℕ × Int)) : heapPop hs = none ↔ hs = [] := by
  cases hs <;> simp [heapPop]

theorem heapPop_mem {hs : List (ℕ × Int)} {m : ℕ × Int} {rest : List (ℕ × Int)}
    (h : heapPop hs = some (m, rest)) : m ∈ hs := by
  cases hs with
  | nil => simp [heapPop] at h
  | cons a t =>
      simp only [heapPop, Option.some.injEq, Prod.mk.injEq] at h
      exact h.1 ▸ heapMin_mem a t

theorem heapPop_rest {hs : List (ℕ × Int)} {m : ℕ × Int} {rest : List (ℕ × Int)}
    (h : heapPop hs = some (m, rest)) : rest = hs.erase m := by
  cases hs with
  | nil => simp [heapPop] at h
  | cons a t =>
      simp only [heapPop, Option.some.injEq, Prod.mk.injEq] at h
      rw [← h.2, h.1]

theorem heapPop_le {hs : List (ℕ × Int)} {m : ℕ × Int} {rest : List (ℕ × Int)}
    (h : heapPop hs = some (m, rest)) : ∀ x ∈ hs, pairLe m x := by
  cases hs with
  | nil => simp [heapPop] at h
  | cons a t =>
      simp only [heapPop, Option.some.injEq, Prod.mk.injEq] at h
      exact h.1 ▸ heapMin_le a t

theorem heapPop_length {hs : List (ℕ × Int)} {m : ℕ × Int} {rest : List (ℕ × Int)}
    (h : heapPop hs = some (m, rest)) : rest.length < hs.length := by
  have hm := heapPop_mem h
  rw [heapPop_rest h, List.length_erase_of_mem hm]
  have : 0 < hs.length := List.length_pos.mpr (List.ne_nil_of_mem hm)
  omega

/-! ## Relaxation (lines 61–72 of `main.py`) -/

/-- Process one adjacency entry of `current`.  The reads
`distances[neighbor]` and `total_params[current]` are defaulted lookups; in
every state reachable from a graph built by `add_road` both keys are present
(established by the invariants below), matching Python, which would raise
`KeyError` on a missing key. -/
def relaxStep (c : Fin 3) (current : Int) (current_dist : ℕ) (s : DState) (e : Edge) : DState :=
  let new_criterion_dist := current_dist + e.w c
  if (new_criterion_dist : ℕ∞) < dgetD s.dd e.neighbor ⊤ then
    { s with dd := dset s.dd e.neighbor (new_criterion_dist : ℕ∞),
             pd := dset s.pd e.neighbor (some current),
             td := dset s.td e.neighbor (tadd (dgetD s.td current (0, 0, 0)) e.params),
             heap := (new_criterion_dist, e.neighbor) :: s.heap }
  else s

/-- The `for neighbor, dist, time, cost in self.graph[current]:` loop. -/
def relaxAll (c : Fin 3) (current : Int) (current_dist : ℕ) (es : List Edge) (s : DState) :
    DState :=
  es.foldl (relaxStep c current current_dist) s

theorem relaxStep_gd (c : Fin 3) (cu : Int) (cd : ℕ) (s : DState) (e : Edge) :
    (relaxStep c cu cd s e).gd = s.gd := by
  unfold relaxStep
  dsimp only
  split <;> rfl

theorem relaxAll_gd (c : Fin 3) (cu : Int) (cd : ℕ) (es : List Edge) (s : DState) :
    (relaxAll c cu cd es s).gd = s.gd := by
  induction es generalizing s with
  | nil => rfl
  | cons e es ih =>
      unfold relaxAll at ih ⊢
      simp only [List.foldl_cons]
      rw [ih, relaxStep_gd]

theorem relaxStep_dmap_le (c : Fin 3) (cu : Int) (cd : ℕ) (s : DState) (e : Edge) :
    ∀ n, (relaxStep c cu cd s e).dmap n ≤ s.dmap n := by
  intro n
  unfold relaxStep
  dsimp only
  split
  · rename_i h
    by_cases hn : n = e.neighbor
    · subst hn
      show dgetD (dset s.dd e.neighbor _) e.neighbor ⊤ ≤ _
      unfold dgetD
      rw [dget_dset_self]
      exact le_of_lt h
    · show dgetD (dset s.dd e.neighbor _) n ⊤ ≤ _
      unfold dgetD
      rw [dget_dset_ne _ _ _ _ hn]
      exact le_refl _
  · exact le_refl _

theorem relaxStep_cases (c : Fin 3) (cu : Int) (cd : ℕ) (s : DState) (e : Edge) :
    relaxStep c cu cd s e = s ∨
      (relaxStep c cu cd s e).dmap e.neighbor < s.dmap e.neighbor := by
  unfold relaxStep
  dsimp only
  split
  · rename_i h
    right
    show dgetD (dset s.dd e.neighbor _) e.neighbor ⊤ < _
    unfold dgetD
    rw [dget_dset_self]
    exact h
  · exact Or.inl rfl

theorem relaxAll_dmap_le (c : Fin 3) (cu : Int) (cd : ℕ) (es : List Edge) (s : DState) :
    ∀ n, (relaxAll c cu cd es s).dmap n ≤ s.dmap n := by
  induction es generalizing s with
  | nil => intro n; exact le_refl _
  | cons e es ih =>
      intro n
      unfold relaxAll at ih ⊢
      simp only [List.foldl_cons]
      exact le_trans (ih _ n) (relaxStep_dmap_le c cu cd s e n)

/-- Either the relaxation pass leaves the state untouched, or the distance map
strictly decreases at some edge target. -/
theorem relaxAll_cases (c : Fin 3) (cu : Int) (cd : ℕ) (es : List Edge) (s : DState) :
    relaxAll c cu cd es s = s ∨
      ∃ e ∈ es, (relaxAll c cu cd es s).dmap e.neighbor < s.dmap e.neighbor := by
  induction es generalizing s with
  | nil => exact Or.inl rfl
  | cons e es ih =>
      unfold relaxAll at ih ⊢
      simp only [List.foldl_cons]
      rcases relaxStep_cases c cu cd s e with h | h
      · rw [h]
        rcases ih s with h' | ⟨e', he', hlt⟩
        · exact Or.inl h'
        · exact Or.inr ⟨e', List.mem_cons_of_mem _ he', hlt⟩
      · right
        refine ⟨e, List.mem_cons_self _ _, lt_of_le_of_lt ?_ h⟩
        exact relaxAll_dmap_le c cu cd es _ e.neighbor

/-! ## Termination of the main loop -/

/-- Strict pointwise decrease of distance maps over a fixed finite support. -/
def FunDec (univ : List Int) (f g : Int → ℕ∞) : Prop :=
  (∀ n ∈ univ, f n ≤ g n) ∧ ∃ n ∈ univ, f n < g n

theorem funDec_wf (univ : List Int) : WellFounded (FunDec univ) := by
  induction univ with
  | nil =>
      constructor
      intro g
      constructor
      intro f hf
      rcases hf.2 with ⟨n, hn, _⟩
      exact absurd hn (List.not_mem_nil n)
  | cons a t ih =>
      have hsub : Subrelation (FunDec (a :: t))
          (InvImage (Prod.Lex ((· < ·) : ℕ∞ → ℕ∞ → Prop) (FunDec t)) fun f => (f a, f)) := by
        intro f g hfg
        obtain ⟨hle, n, hn, hlt⟩ := hfg
        rcases lt_or_eq_of_le (hle a (List.mem_cons_self a t)) with h | h
        · exact Prod.Lex.left _ _ h
        · have ht : FunDec t f g := by
            refine ⟨fun m hm => hle m (List.mem_cons_of_mem _ hm), ?_⟩
            rcases List.mem_cons.mp hn with rfl | hn'
            · exact absurd h (ne_of_lt hlt)
            · exact ⟨n, hn', hlt⟩
          show Prod.Lex _ _ (f a, f) (g a, g)
          rw [h]
          exact Prod.Lex.right _ ht
      exact Subrelation.wf hsub (InvImage.wf _ (WellFounded.prod_lex wellFounded_lt ih))

/-- Wrapper carrying the termination measure of the main loop. -/
structure DMeasure (univ : List Int) where
  fmap : Int → ℕ∞
  len : ℕ

instance (univ : List Int) : WellFoundedRelation (DMeasure univ) where
  rel m' m := FunDec univ m'.fmap m.fmap ∨ (m'.fmap = m.fmap ∧ m'.len < m.len)
  wf := by
    have hsub : Subrelation
        (fun m' m : DMeasure univ =>
          FunDec univ m'.fmap m.fmap ∨ (m'.fmap = m.fmap ∧ m'.len < m.len))
        (InvImage (Prod.Lex (FunDec univ) ((· < ·) : ℕ → ℕ → Prop)) fun m => (m.fmap, m.len)) := by
      rintro m' m (h | ⟨hf, hl⟩)
      · exact Prod.Lex.left _ _ h
      · show Prod.Lex _ _ (m'.fmap, m'.len) (m.fmap, m.len)
        rw [hf]
        exact Prod.Lex.right _ hl
    exact Subrelation.wf hsub (InvImage.wf _ (WellFounded.prod_lex (funDec_wf univ) (Nat.lt_wfRel.wf)))

/-- All edge targets recorded in the adjacency dictionary lie in `univ`;
threaded through the loop to support the termination measure. -/
def TargetsIn (univ : List Int) (gd : List (Int × List Edge)) : Prop :=
  ∀ p ∈ gd, ∀ e ∈ p.2, e.neighbor ∈ univ

/-- A read of `self.graph[current]` on the `defaultdict(list)`: yields the
stored adjacency list, and inserts a fresh empty binding when absent. -/
def ddRead (d : List (Int × List Edge)) (k : Int) : List Edge × List (Int × List Edge) :=
  match dget d k with
  | some v => (v, d)
  | none => ([], d ++ [(k, [])])

theorem ddRead_targets {univ : List Int} {gd : List (Int × List Edge)} (k : Int)
    (h : TargetsIn univ gd) : TargetsIn univ (ddRead gd k).2 := by
  unfold ddRead
  cases hg : dget gd k with
  | some v => exact h
  | none =>
      intro p hp e he
      rcases List.mem_append.mp hp with hp | hp
      · exact h p hp e he
      · rcases List.mem_singleton.mp hp with rfl
        cases he

theorem ddRead_val_targets {univ : List Int} {gd : List (Int × List Edge)} (k : Int)
    (h : TargetsIn univ gd) : ∀ e ∈ (ddRead gd k).1, e.neighbor ∈ univ := by
  unfold ddRead
  cases hg : dget gd k with
  | some v => exact fun e he => h (k, v) (mem_of_dget_eq_some hg) e he
  | none => intro e he; cases he

/-- The `while heap:` loop (lines 52–72): pop the least entry; skip it when
stale (`current_dist > distances[current]`), break when the target is popped,
and otherwise read `self.graph[current]` (a `defaultdict` read, which inserts
a missing key) and relax all its adjacency entries.  The list `univ` only
supports the termination measure and never influences the computation. -/
def dloop (c : Fin 3) (end_id : Int) (univ : List Int) (s : DState)
    (hu : TargetsIn univ s.gd) : DState :=
  match hpop : heapPop s.heap with
  | none => s
  | some ((current_dist, current), rest) =>
      if hskip : s.dmap current < (current_dist : ℕ∞) then
        dloop c end_id univ { s with heap := rest } hu
      else if current = end_id then
        { s with heap := rest }
      else
        dloop c end_id univ
          (relaxAll c current current_dist (ddRead s.gd current).1
            { s with heap := rest, gd := (ddRead s.gd current).2 })
          (by
            rw [relaxAll_gd]
            exact ddRead_targets current hu)
termination_by (⟨s.dmap, s.heap.length⟩ : DMeasure univ)
decreasing_by
  · right
    exact ⟨rfl, heapPop_length hpop⟩
  · rcases relaxAll_cases c current current_dist (ddRead s.gd current).1
        { s with heap := rest, gd := (ddRead s.gd current).2 } with heq | ⟨e, he, hlt⟩
    · rw [heq]
      right
      exact ⟨rfl, heapPop_length hpop⟩
    · left
      refine ⟨?_, e.neighbor, ddRead_val_targets current hu e he, hlt⟩
      intro n _
      exact relaxAll_dmap_le _ _ _ _ _ n

theorem dloop_none {c : Fin 3} {end_id : Int} {univ : List Int} {s : DState}
    {hu : TargetsIn univ s.gd} (hpop : heapPop s.heap = none) :
    dloop c end_id univ s hu = s := by
  conv_lhs => unfold dloop
  split
  · rfl
  · rename_i heq
    rw [hpop] at heq
    cases heq

theorem dloop_skip {c : Fin 3} {end_id : Int} {univ : List Int} {s : DState}
    {hu : TargetsIn univ s.gd} {cd : ℕ} {cu : Int} {rest : List (ℕ × Int)}
    (hpop : heapPop s.heap = some ((cd, cu), rest)) (hsk : s.dmap cu < (cd : ℕ∞))
    (hu' : TargetsIn univ ({ s with heap := rest } : DState).gd) :
    dloop c end_id univ s hu = dloop c end_id univ { s with heap := rest } hu' := by
  conv_lhs => unfold dloop
  split
  · rename_i heq
    rw [hpop] at heq
    cases heq
  · rename_i cd' cu' rest' heq
    rw [hpop] at heq
    cases heq
    rw [dif_pos hsk]

theorem dloop_break {c : Fin 3} {end_id : Int} {univ : List Int} {s : DState}
    {hu : TargetsIn univ s.gd} {cd : ℕ} {cu : Int} {rest : List (ℕ × Int)}
    (hpop : heapPop s.heap = some ((cd, cu), rest)) (hsk : ¬ s.dmap cu < (cd : ℕ∞))
    (hcu : cu = end_id) :
    dloop c end_id univ s hu = { s with heap := rest } := by
  conv_lhs => unfold dloop
  split
  · rename_i heq
    rw [hpop] at heq
    cases heq
  · rename_i cd' cu' rest' heq
    rw [hpop] at heq
    cases heq
    rw [dif_neg hsk, if_pos hcu]

theorem dloop_go {c : Fin 3} {end_id : Int} {univ : List Int} {s : DState}
    {hu : TargetsIn univ s.gd} {cd : ℕ} {cu : Int} {rest : List (ℕ × Int)}
    (hpop : heapPop s.heap = some ((cd, cu), rest)) (hsk : ¬ s.dmap cu < (cd : ℕ∞))
    (hcu : cu ≠ end_id)
    (hu' : TargetsIn univ (relaxAll c cu cd (ddRead s.gd cu).1
      { s with heap := rest, gd := (ddRead s.gd cu).2 } : DState).gd) :
    dloop c end_id univ s hu = dloop c end_id univ
      (relaxAll c cu cd (ddRead s.gd cu).1
        { s with heap := rest, gd := (ddRead s.gd cu).2 }) hu' := by
  conv_lhs => unfold dloop
  split
  · rename_i heq
    rw [hpop] at heq
    cases heq
  · rename_i cd' cu' rest' heq
    rw [hpop] at heq
    cases heq
    rw [dif_neg hsk, if_neg hcu]

/-- Fuel-indexed variant of the main loop, used to evaluate concrete runs
(`none` = fuel exhausted). -/
def dloopF (c : Fin 3) (end_id : Int) : ℕ → DState → Option DState
  | 0, _ => none
  | fuel + 1, s =>
      match heapPop s.heap with
      | none => some s
      | some ((current_dist, current), rest) =>
          if s.dmap current < (current_dist : ℕ∞) then
            dloopF c end_id fuel { s with heap := rest }
          else if current = end_id then
            some { s with heap := rest }
          else
            dloopF c end_id fuel
              (relaxAll c current current_dist (ddRead s.gd current).1
                { s with heap := rest, gd := (ddRead s.gd current).2 })

/-- The fuel-indexed loop agrees with the loop wherever it completes. -/
theorem dloop_of_dloopF {c : Fin 3} {end_id : Int} {univ : List Int} :
    ∀ (fuel : ℕ) (s : DState) (hu : TargetsIn univ s.gd) (t : DState),
      dloopF c end_id fuel s = some t → dloop c end_id univ s hu = t := by
  intro fuel
  induction fuel with
  | zero =>
      intro s hu t h
      simp [dloopF] at h
  | succ n ih =>
      intro s hu t h
      rw [dloopF] at h
      cases hpop : heapPop s.heap with
      | none =>
          rw [hpop] at h
          dsimp only at h
          cases h
          exact dloop_none hpop
      | some mr =>
          obtain ⟨⟨cd, cu⟩, rest⟩ := mr
          rw [hpop] at h
          dsimp only at h
          by_cases hsk : s.dmap cu < (cd : ℕ∞)
          · rw [if_pos hsk] at h
            rw [dloop_skip hpop hsk hu]
            exact ih { s with heap := rest } hu t h
          · rw [if_neg hsk] at h
            by_cases hcu : cu = end_id
            · rw [if_pos hcu] at h
              cases h
              exact dloop_break hpop hsk hcu
            · rw [if_neg hcu] at h
              rw [dloop_go hpop hsk hcu (by rw [relaxAll_gd]; exact ddRead_targets cu hu)]
              exact ih _ _ t h

/-! ## `find_optimal_path` (lines 36–84) -/

/-- All edge targets recorded in an adjacency dictionary. -/
def targetsOf (gd : List (Int × List Edge)) : List Int :=
  gd.foldr (fun p acc => p.2.map Edge.neighbor ++ acc) []

theorem mem_targetsOf {gd : List (Int × List Edge)} {p : Int × List Edge} {e : Edge}
    (hp : p ∈ gd) (he : e ∈ p.2) : e.neighbor ∈ targetsOf gd := by
  induction gd with
  | nil => cases hp
  | cons q t ih =>
      unfold targetsOf at ih ⊢
      simp only [List.foldr_cons]
      rcases List.mem_cons.mp hp with rfl | hp'
      · exact List.mem_append.mpr (Or.inl (List.mem_map.mpr ⟨e, he, rfl⟩))
      · exact List.mem_append.mpr (Or.inr (ih hp'))

theorem targetsIn_targetsOf (gd : List (Int × List Edge)) : TargetsIn (targetsOf gd) gd :=
  fun _ hp _ he => mem_targetsOf hp he

/-- Path reconstruction (lines 77–82): follow `prev` from `end_id`, collecting
nodes in pop-out order (the caller reverses).  A missing `prev` key is
Python's `KeyError` (`none`); running out of fuel also yields `none`, and the
fuel passed by `find_optimal_path` is shown below to cover every chain arising
in reachable states. -/
def buildPath (pd : List (Int × Option Int)) : ℕ → Int → List Int → Option (List Int)
  | 0, _, _ => none
  | fuel + 1, current, path =>
      match dget pd current with
      | none => none
      | some none => some (path ++ [current])
      | some (some v) => buildPath pd fuel v (path ++ [current])

/-- The initial solver state (lines 43–50): `distances` is `inf` on the
adjacency keys then `0` at `start_id`, `prev` is `None` on the adjacency keys,
`total_params` is `(0,0,0)` on the adjacency keys and at `start_id`, and the
heap holds `(0, start_id)`. -/
def dInit (g : CityGraph) (start_id : Int) : DState :=
  ⟨g.graph,
   dset (g.graph.map fun p => (p.1, (⊤ : ℕ∞))) start_id 0,
   g.graph.map fun p => (p.1, none),
   dset (g.graph.map fun p => (p.1, ((0, 0, 0) : Totals))) start_id (0, 0, 0),
   [(0, start_id)]⟩

/-- Lines 74–84: the `KeyError` check at `distances[end_id]`, the no-path
return, and path reconstruction with `total_params[end_id]`. -/
def dFinish (g : CityGraph) (s1 : DState) (end_id : Int) :
    Option (List Int × Totals) × CityGraph :=
  let g1 : CityGraph := { g with graph := s1.gd }
  match dget s1.dd end_id with
  | none => (none, g1)
  | some d =>
      if d = ⊤ then (some ([], (0, 0, 0)), g1)
      else
        match buildPath s1.pd (s1.pd.length + 1) end_id [] with
        | none => (none, g1)
        | some path => (some (path.reverse, dgetD s1.td end_id (0, 0, 0)), g1)

/-- `find_optimal_path` (lines 36–84).  The first component is the returned
`(путь, (расстояние, время, стоимость))`, or `none` for an uncaught
`KeyError`; the second component is the post-call graph store, whose
`defaultdict` adjacency can gain an empty binding at a missing source id. -/
def find_optimal_path (g : CityGraph) (start_id end_id : Int) (criterion : Fin 3) :
    Option (List Int × Totals) × CityGraph :=
  dFinish g
    (dloop criterion end_id (targetsOf g.graph) (dInit g start_id)
      (targetsIn_targetsOf g.graph))
    end_id

/-- Fuel-indexed evaluator of `find_optimal_path`, for concrete runs. -/
def findF (fuel : ℕ) (g : CityGraph) (start_id end_id : Int) (criterion : Fin 3) :
    Option (Option (List Int × Totals) × CityGraph) :=
  (dloopF criterion end_id fuel (dInit g start_id)).map fun s1 => dFinish g s1 end_id

theorem find_optimal_path_of_findF {fuel : ℕ} {g : CityGraph} {start_id end_id : Int}
    {criterion : Fin 3} {r : Option (List Int × Totals) × CityGraph}
    (h : findF fuel g start_id end_id criterion = some r) :
    find_optimal_path g start_id end_id criterion = r := by
  unfold findF at h
  cases hl : dloopF criterion end_id fuel (dInit g start_id) with
  | none => rw [hl] at h; cases h
  | some s1 =>
      rw [hl] at h
      rw [Option.map_some'] at h
      cases h
      unfold find_optimal_path
      rw [dloop_of_dloopF fuel _ _ s1 hl]

/-! ## `get_all_optimal_routes` (lines 86–103) -/

/-- A route: a path with its 3-tuple of totals. -/
abbrev Route := List Int × Totals

instance : DecidableEq (List (String × Route)) := inferInstance

/-- The fixed criteria list of line 96. -/
def criteria : List (String × Fin 3) := [("ДЛИНА", 0), ("ВРЕМЯ", 1), ("СТОИМОСТЬ", 2)]

/-- The `for name, idx in criteria:` loop (lines 98–101): run the solver per
criterion, record results whose path is nonempty (`if path:`) in the `results`
dictionary, thread the (possibly mutating) graph store, and propagate an
uncaught exception (`none`). -/
def runCriteria (g : CityGraph) (start_id end_id : Int) :
    List (String × Fin 3) → List (String × Route) →
      Option (List (String × Route)) × CityGraph
  | [], results => (some results, g)
  | (name, idx) :: cs, results =>
      match find_optimal_path g start_id end_id idx with
      | (none, g1) => (none, g1)
      | (some (path, params), g1) =>
          runCriteria g1 start_id end_id cs
            (if path = [] then results else dset results name (path, params))

/-- `get_all_optimal_routes` (lines 86–103): resolve both names; `if not
start_id or not end_id: return {}` — note Python treats the id `0` as falsy. -/
def get_all_optimal_routes (g : CityGraph) (start_name end_name : String) :
    Option (List (String × Route)) × CityGraph :=
  match g.get_id_by_name start_name, g.get_id_by_name end_name with
  | some start_id, some end_id =>
      if start_id = 0 ∨ end_id = 0 then (some [], g)
      else runCriteria g start_id end_id criteria []
  | _, _ => (some [], g)

/-! ## `find_compromise_route` (lines 105–118) -/

/-- Python `priorities.strip("()")`: remove leading and trailing parens. -/
def stripParens (s : String) : String :=
  String.mk (((s.toList.dropWhile fun ch => ch == '(' || ch == ')').reverse.dropWhile
      fun ch => ch == '(' || ch == ')').reverse)

/-- Python `.replace(" ", "")`: remove every space. -/
def removeSpaces (s : String) : String :=
  String.mk (s.toList.filter fun ch => !(ch == ' '))

/-- Python `s.split(",")`: split at every comma, keeping empty pieces. -/
def splitCommaChars : List Char → List (List Char)
  | [] => [[]]
  | ch :: t =>
      let r := splitCommaChars t
      if ch = ',' then [] :: r
      else (ch :: r.headI) :: r.tail

/-- `priorities_str.split(",")` after stripping parens and spaces. -/
def priorityOrder (priorities : String) : List String :=
  (splitCommaChars (removeSpaces (stripParens priorities)).toList).map String.mk

/-- The `criterion_map` of line 111. -/
def criterion_map : List (String × String) :=
  [("Д", "ДЛИНА"), ("В", "ВРЕМЯ"), ("С", "СТОИМОСТЬ")]

/-- The `for criterion in priority_order:` loop (lines 113–116): return the
first mapped criterion present in `routes`; unmapped tags are skipped since
`None`/an absent key is never in `routes`. -/
def pickRoute (routes : List (String × Route)) : List String → Route
  | [] => ([], (0, 0, 0))
  | tag :: rest =>
      match dget criterion_map tag with
      | some route_key =>
          match dget routes route_key with
          | some r => r
          | none => pickRoute routes rest
      | none => pickRoute routes rest

/-- `find_compromise_route` (lines 105–118). -/
def find_compromise_route (routes : List (String × Route)) (priorities : String) : Route :=
  pickRoute routes (priorityOrder priorities)

/-! ## Loop invariants

The proofs below are organized around a state invariant for the `while heap:`
loop: heap entries dominate recorded distances (`hkeys`), every finite
distance is either backed by a live heap entry or fully relaxed (`live`),
every finite distance is witnessed by a consistent `prev`-chain (`chains`),
and settled values are dominated by every heap key (`dom`). -/

/-- The adjacency of `n` in the initial dictionary `gd0` (missing ⇒ `[]`). -/
def adjOf (gd0 : List (Int × List Edge)) (n : Int) : List Edge := dgetD gd0 n []

/-- There is a live heap entry for `n`, i.e. one holding `n`'s current
recorded distance. -/
def HasCur (s : DState) (n : Int) (dv : ℕ∞) : Prop :=
  ∃ k : ℕ, (k, n) ∈ s.heap ∧ (k : ℕ∞) = dv

/-- `n` is settled: a finite recorded distance and no live heap entry.  A
settled node has been popped with its final distance and is never updated
again. -/
def Settled (s : DState) (n : Int) : Prop :=
  ∃ dv : ℕ∞, dget s.dd n = some dv ∧ dv ≠ ⊤ ∧ ¬ HasCur s n dv

/-- All relaxations out of `n` are satisfied by the recorded distances. -/
def Closed (c : Fin 3) (gd0 : List (Int × List Edge)) (s : DState) (n : Int) (dv : ℕ∞) : Prop :=
  ∀ e ∈ adjOf gd0 n, ∃ dv', dget s.dd e.neighbor = some dv' ∧ dv' ≤ dv + (e.w c : ℕ∞)

/-- `l` is the `prev`-pointer chain from `u` (head) back to `start` (last),
with consistent recorded distances and totals along actual edges, and with
every predecessor settled. -/
inductive PrevChain (c : Fin 3) (gd0 : List (Int × List Edge)) (start : Int) (s : DState) :
    List Int → Int → Prop
  | base :
      dget s.dd start = some 0 →
      dget s.td start = some (0, 0, 0) →
      (∀ v : Int, dget s.pd start ≠ some (some v)) →
      PrevChain c gd0 start s [start] start
  | step (u v : Int) (e : Edge) (l : List Int) (du dv : ℕ∞) (tu tv : Totals) :
      PrevChain c gd0 start s l v →
      dget s.pd u = some (some v) →
      e ∈ adjOf gd0 v → e.neighbor = u →
      dget s.dd u = some du → dget s.dd v = some dv →
      du = dv + (e.w c : ℕ∞) → du ≠ ⊤ →
      dget s.td u = some tu → dget s.td v = some tv →
      tu = tadd tv e.params →
      Settled s v →
      PrevChain c gd0 start s (u :: l) u

/-- The state invariant of the main loop. -/
structure LoopInv (c : Fin 3) (start end_id : Int) (gd0 : List (Int × List Edge))
    (s : DState) : Prop where
  adjv : ∀ n, dgetD s.gd n [] = dgetD gd0 n []
  gds : s.gd = gd0 ∨ (start ∉ dkeys gd0 ∧ s.gd = gd0 ++ [(start, [])])
  ddsome : ∀ n, n ∈ dkeys gd0 ∨ n = start → (dget s.dd n).isSome
  ddmem : ∀ n, (dget s.dd n).isSome → n ∈ dkeys gd0 ∨ n = start
  tddd : ∀ n, (dget s.td n).isSome ↔ (dget s.dd n).isSome
  dstart : dget s.dd start = some 0
  tstart : dget s.td start = some (0, 0, 0)
  pdstart : (∀ v : Int, dget s.pd start ≠ some (some v)) ∧
    (start ∈ dkeys gd0 → dget s.pd start = some none)
  hkeys : ∀ k n, (k, n) ∈ s.heap → ∃ dv, dget s.dd n = some dv ∧ dv ≤ (k : ℕ∞)
  hnodup : s.heap.Nodup
  live : ∀ n dv, dget s.dd n = some dv → dv ≠ ⊤ → HasCur s n dv ∨ Closed c gd0 s n dv
  chains : ∀ n dv, dget s.dd n = some dv → dv ≠ ⊤ → ∃ l, PrevChain c gd0 start s l n
  dom : ∀ n dv, dget s.dd n = some dv → dv ≠ ⊤ → ¬ HasCur s n dv →
    ∀ km ∈ s.heap, dv ≤ (km.1 : ℕ∞)

/-- The invariant holding while the popped node `cu` (with final distance
`cd`) is being expanded: as `Inv`, except that `cu` itself need not be live or
closed yet, and with the additional facts recorded at the pop: `cu` is settled
at `cd`, settled values are at most `cd`, and all heap keys are at least
`cd`. -/
structure MidInv (c : Fin 3) (start end_id : Int) (gd0 : List (Int × List Edge))
    (cu : Int) (cd : ℕ) (s : DState) : Prop where
  adjv : ∀ n, dgetD s.gd n [] = dgetD gd0 n []
  gds : s.gd = gd0 ∨ (start ∉ dkeys gd0 ∧ s.gd = gd0 ++ [(start, [])])
  ddsome : ∀ n, n ∈ dkeys gd0 ∨ n = start → (dget s.dd n).isSome
  ddmem : ∀ n, (dget s.dd n).isSome → n ∈ dkeys gd0 ∨ n = start
  tddd : ∀ n, (dget s.td n).isSome ↔ (dget s.dd n).isSome
  dstart : dget s.dd start = some 0
  tstart : dget s.td start = some (0, 0, 0)
  pdstart : (∀ v : Int, dget s.pd start ≠ some (some v)) ∧
    (start ∈ dkeys gd0 → dget s.pd start = some none)
  hkeys : ∀ k n, (k, n) ∈ s.heap → ∃ dv, dget s.dd n = some dv ∧ dv ≤ (k : ℕ∞)
  hnodup : s.heap.Nodup
  live1 : ∀ n dv, dget s.dd n = some dv → dv ≠ ⊤ → n ≠ cu →
    HasCur s n dv ∨ Closed c gd0 s n dv
  chains : ∀ n dv, dget s.dd n = some dv → dv ≠ ⊤ → ∃ l, PrevChain c gd0 start s l n
  cubind : dget s.dd cu = some ((cd : ℕ∞))
  cusettled : Settled s cu
  setdom : ∀ n dv, dget s.dd n = some dv → dv ≠ ⊤ → ¬ HasCur s n dv → dv ≤ (cd : ℕ∞)
  hge : ∀ km ∈ s.heap, (cd : ℕ∞) ≤ (km.1 : ℕ∞)

/-- What holds of the loop's final state. -/
structure LoopPost (c : Fin 3) (start end_id : Int) (gd0 : List (Int × List Edge))
    (s : DState) : Prop where
  adjv : ∀ n, dgetD s.gd n [] = dgetD gd0 n []
  gds : s.gd = gd0 ∨ (start ∉ dkeys gd0 ∧ s.gd = gd0 ++ [(start, [])])
  ddsome : ∀ n, n ∈ dkeys gd0 ∨ n = start → (dget s.dd n).isSome
  ddmem : ∀ n, (dget s.dd n).isSome → n ∈ dkeys gd0 ∨ n = start
  tddd : ∀ n, (dget s.td n).isSome ↔ (dget s.dd n).isSome
  dstart : dget s.dd start = some 0
  tstart : dget s.td start = some (0, 0, 0)
  pdstart : (∀ v : Int, dget s.pd start ≠ some (some v)) ∧
    (start ∈ dkeys gd0 → dget s.pd start = some none)
  chains : ∀ n dv, dget s.dd n = some dv → dv ≠ ⊤ → ∃ l, PrevChain c gd0 start s l n
  clo : ∀ n dv, dget s.dd n = some dv → dv ≠ ⊤ →
    Closed c gd0 s n dv ∨ ∃ de, dget s.dd end_id = some de ∧ de ≤ dv
  reach : (∀ n dv, dget s.dd n = some dv → dv ≠ ⊤ → Closed c gd0 s n dv) ∨
    (∃ de, dget s.dd end_id = some de ∧ de ≠ ⊤)

/-! ### Dictionary and state utilities -/

theorem dget_mapConst {ν ν' : Type} (d : List (Int × ν)) (z : ν') (k : Int) :
    dget (d.map fun p => (p.1, z)) k = (dget d k).map fun _ => z := by
  induction d with
  | nil => rfl
  | cons p t ih =>
      obtain ⟨a, b⟩ := p
      by_cases h : k = a
      · simp [dget, h]
      · simp only [List.map_cons, dget, h, if_false]
        exact ih

theorem ddRead_fst (gd : List (Int × List Edge)) (k : Int) :
    (ddRead gd k).1 = dgetD gd k [] := by
  unfold ddRead dgetD
  cases h : dget gd k <;> simp [h]

theorem dget_append_right {κ ν : Type} [DecidableEq κ] (d d' : List (κ × ν)) (k : κ)
    (h : dget d k = none) : dget (d ++ d') k = dget d' k := by
  induction d with
  | nil => simp
  | cons p t ih =>
      obtain ⟨a, b⟩ := p
      by_cases hka : k = a
      · simp [dget, hka] at h
      · simp only [List.cons_append, dget, hka, if_false] at h ⊢
        exact ih h

theorem dget_append_left {κ ν : Type} [DecidableEq κ] (d d' : List (κ × ν)) (k : κ) (v : ν)
    (h : dget d k = some v) : dget (d ++ d') k = some v := by
  induction d with
  | nil => simp [dget] at h
  | cons p t ih =>
      obtain ⟨a, b⟩ := p
      by_cases hka : k = a
      · simpa [dget, hka] using h
      · simp only [dget, hka, if_false] at h
        simp only [List.cons_append, dget, hka, if_false]
        exact ih h

theorem ddRead_snd_dgetD (gd : List (Int × List Edge)) (k n : Int) :
    dgetD (ddRead gd k).2 n [] = dgetD gd n [] := by
  unfold ddRead
  cases h : dget gd k with
  | some v => rfl
  | none =>
      unfold dgetD
      by_cases hn : n = k
      · subst hn
        rw [h, dget_append_right _ _ _ h]
        simp [dget]
      · cases hv : dget gd n with
        | some w => rw [dget_append_left _ _ _ _ hv]
        | none =>
            rw [dget_append_right _ _ _ hv]
            simp [dget, hn]

theorem relaxStep_pos {c : Fin 3} {cu : Int} {cd : ℕ} {s : DState} {e : Edge}
    (h : ((cd + e.w c : ℕ) : ℕ∞) < dgetD s.dd e.neighbor ⊤) :
    relaxStep c cu cd s e =
      { s with dd := dset s.dd e.neighbor ((cd + e.w c : ℕ) : ℕ∞),
               pd := dset s.pd e.neighbor (some cu),
               td := dset s.td e.neighbor (tadd (dgetD s.td cu (0, 0, 0)) e.params),
               heap := ((cd + e.w c : ℕ), e.neighbor) :: s.heap } := by
  unfold relaxStep
  dsimp only
  rw [if_pos h]

theorem relaxStep_neg {c : Fin 3} {cu : Int} {cd : ℕ} {s : DState} {e : Edge}
    (h : ¬ ((cd + e.w c : ℕ) : ℕ∞) < dgetD s.dd e.neighbor ⊤) :
    relaxStep c cu cd s e = s := by
  unfold relaxStep
  dsimp only
  rw [if_neg h]

theorem chain_head {c : Fin 3} {gd0 : List (Int × List Edge)} {start : Int} {s : DState}
    {l : List Int} {u : Int} (h : PrevChain c gd0 start s l u) : ∃ l', l = u :: l' := by
  cases h with
  | base _ _ _ => exact ⟨[], rfl⟩
  | step u v e l du dv tu tv _ _ _ _ _ _ _ _ _ _ _ _ => exact ⟨l, rfl⟩

theorem chain_tail_settled {c : Fin 3} {gd0 : List (Int × List Edge)} {start : Int}
    {s : DState} {l : List Int} {u : Int} (h : PrevChain c gd0 start s (u :: l) u) :
    ∀ x ∈ l, Settled s x := by
  induction l generalizing u with
  | nil => intro x hx; cases hx
  | cons v l ih =>
      intro x hx
      cases h with
      | step _ v' e _ du dv tu tv hch hpd he hnb hdu hdv hde hdt htu htv hte hsv =>
          obtain ⟨l', hl'⟩ := chain_head hch
          cases hl'
          rcases List.mem_cons.mp hx with rfl | hx'
          · exact hsv
          · exact ih hch x hx'

theorem settled_mono {s s' : DState} {m : Int} (h : Settled s m)
    (hdd : dget s'.dd m = dget s.dd m)
    (hent : ∀ k : ℕ, (k, m) ∈ s'.heap → (k, m) ∈ s.heap) : Settled s' m := by
  obtain ⟨dv, hb, ht, hnc⟩ := h
  refine ⟨dv, hdd ▸ hb, ht, ?_⟩
  rintro ⟨k, hk, he⟩
  exact hnc ⟨k, hent k hk, he⟩

theorem prevChain_mono {c : Fin 3} {gd0 : List (Int × List Edge)} {start : Int}
    {s s' : DState} {l : List Int} {u : Int}
    (hch : PrevChain c gd0 start s l u)
    (hdd : ∀ x ∈ l, dget s'.dd x = dget s.dd x)
    (hpd : ∀ x ∈ l, dget s'.pd x = dget s.pd x)
    (htd : ∀ x ∈ l, dget s'.td x = dget s.td x)
    (hst : ∀ x ∈ l, Settled s x → Settled s' x) :
    PrevChain c gd0 start s' l u := by
  induction hch with
  | base h1 h2 h3 =>
      have hm : start ∈ [start] := List.mem_singleton.mpr rfl
      exact PrevChain.base (by rw [hdd start hm]; exact h1) (by rw [htd start hm]; exact h2)
        (by rw [hpd start hm]; exact h3)
  | step u v e l du dv tu tv hch hpd1 he hnb hdu hdv hde hdt htu htv hte hsv ih =>
      have hmu : u ∈ u :: l := List.mem_cons_self _ _
      have hml : ∀ x ∈ l, x ∈ u :: l := fun x hx => List.mem_cons_of_mem _ hx
      have hmv : v ∈ l := by
        obtain ⟨l', hl'⟩ := chain_head hch
        rw [hl']
        exact List.mem_cons_self _ _
      refine PrevChain.step u v e l du dv tu tv
        (ih (fun x hx => hdd x (hml x hx)) (fun x hx => hpd x (hml x hx))
          (fun x hx => htd x (hml x hx)) (fun x hx => hst x (hml x hx)))
        (by rw [hpd u hmu]; exact hpd1) he hnb
        (by rw [hdd u hmu]; exact hdu) (by rw [hdd v (hml v hmv)]; exact hdv) hde hdt
        (by rw [htd u hmu]; exact htu) (by rw [htd v (hml v hmv)]; exact htv) hte
        (hst v (hml v hmv) hsv)

/-- Preservation of the mid-expansion invariant by one successful relaxation
(the `if new_criterion_dist < distances[neighbor]:` branch). -/
theorem push_midInv {c : Fin 3} {start end_id : Int} {gd0 : List (Int × List Edge)}
    {cu : Int} {cd : ℕ} {s : DState} {e : Edge}
    (hcl : ∀ n, ∀ e' ∈ adjOf gd0 n, e'.neighbor ∈ dkeys gd0)
    (hm : MidInv c start end_id gd0 cu cd s) (he : e ∈ adjOf gd0 cu)
    (hup : ((cd + e.w c : ℕ) : ℕ∞) < dgetD s.dd e.neighbor ⊤) :
    MidInv c start end_id gd0 cu cd
      { s with dd := dset s.dd e.neighbor ((cd + e.w c : ℕ) : ℕ∞),
               pd := dset s.pd e.neighbor (some cu),
               td := dset s.td e.neighbor (tadd (dgetD s.td cu (0, 0, 0)) e.params),
               heap := ((cd + e.w c : ℕ), e.neighbor) :: s.heap } := by
  have hnbcu : e.neighbor ≠ cu := by
    intro hx
    rw [hx] at hup
    rw [show dgetD s.dd cu ⊤ = ((cd : ℕ) : ℕ∞) from by unfold dgetD; rw [hm.cubind]; rfl] at hup
    have := Nat.cast_lt.mp hup
    omega
  have hnbstart : e.neighbor ≠ start := by
    intro hx
    rw [hx] at hup
    rw [show dgetD s.dd start ⊤ = (0 : ℕ∞) from by unfold dgetD; rw [hm.dstart]; rfl] at hup
    exact absurd hup (by simp)
  have hnbns : ¬ Settled s e.neighbor := by
    rintro ⟨dv, hb, ht, hnc⟩
    have h1 : dgetD s.dd e.neighbor ⊤ = dv := by unfold dgetD; rw [hb]; rfl
    have h2 := hm.setdom e.neighbor dv hb ht hnc
    rw [h1] at hup
    have h3 : ((cd + e.w c : ℕ) : ℕ∞) < ((cd : ℕ) : ℕ∞) := lt_of_lt_of_le hup h2
    have := Nat.cast_lt.mp h3
    omega
  have hnew_notin : (((cd + e.w c : ℕ), e.neighbor) : ℕ × Int) ∉ s.heap := by
    intro hmem
    obtain ⟨dv, hb, hle⟩ := hm.hkeys _ _ hmem
    have h1 : dgetD s.dd e.neighbor ⊤ = dv := by unfold dgetD; rw [hb]; rfl
    rw [h1] at hup
    exact absurd hle (not_le.mpr hup)
  have htdcu : dget s.td cu = some (dgetD s.td cu (0, 0, 0)) := by
    have h1 : (dget s.dd cu).isSome := by rw [hm.cubind]; rfl
    have h2 := (hm.tddd cu).mpr h1
    cases hx : dget s.td cu with
    | none => rw [hx] at h2; cases h2
    | some t0 => unfold dgetD; rw [hx]; rfl
  set nb := e.neighbor with hnbdef
  set newv : ℕ := cd + e.w c with hnewvdef
  set s2 : DState :=
      { s with dd := dset s.dd nb ((newv : ℕ) : ℕ∞),
               pd := dset s.pd nb (some cu),
               td := dset s.td nb (tadd (dgetD s.td cu (0, 0, 0)) e.params),
               heap := ((newv : ℕ), nb) :: s.heap } with hs2def
  have hddne : ∀ x, x ≠ nb → dget s2.dd x = dget s.dd x := fun x hx =>
    dget_dset_ne _ _ _ _ hx
  have hpdne : ∀ x, x ≠ nb → dget s2.pd x = dget s.pd x := fun x hx =>
    dget_dset_ne _ _ _ _ hx
  have htdne : ∀ x, x ≠ nb → dget s2.td x = dget s.td x := fun x hx =>
    dget_dset_ne _ _ _ _ hx
  have hent : ∀ (k : ℕ) (m : Int), (k, m) ∈ s2.heap → (k, m) = (newv, nb) ∨ (k, m) ∈ s.heap :=
    fun k m hk => List.mem_cons.mp hk
  have hset_pers : ∀ m, m ≠ nb → Settled s m → Settled s2 m := by
    intro m hmnb hs
    refine settled_mono hs (hddne m hmnb) ?_
    intro k hk
    rcases hent k m hk with hx | hx
    · cases hx; exact absurd rfl hmnb
    · exact hx
  have hchain_lift : ∀ l u, u ≠ nb → PrevChain c gd0 start s l u →
      PrevChain c gd0 start s2 l u := by
    intro l u hu hch
    obtain ⟨l', rfl⟩ := chain_head hch
    have htail := chain_tail_settled hch
    have hne : ∀ x ∈ u :: l', x ≠ nb := by
      intro x hx
      rcases List.mem_cons.mp hx with rfl | hx'
      · exact hu
      · intro hxx
        exact hnbns (hxx ▸ htail x hx')
    exact prevChain_mono hch (fun x hx => hddne x (hne x hx))
      (fun x hx => hpdne x (hne x hx)) (fun x hx => htdne x (hne x hx))
      (fun x hx hs => hset_pers x (hne x hx) hs)
  have hddnb : dget s2.dd nb = some ((newv : ℕ) : ℕ∞) := dget_dset_self _ _ _
  have hcusettled2 : Settled s2 cu := hset_pers cu (Ne.symm hnbcu) hm.cusettled
  have hcubind2 : dget s2.dd cu = some ((cd : ℕ) : ℕ∞) := by
    rw [hddne cu (Ne.symm hnbcu)]; exact hm.cubind
  have hchains2 : ∀ n dv, dget s2.dd n = some dv → dv ≠ ⊤ →
      ∃ l, PrevChain c gd0 start s2 l n := by
    intro n dv hb ht
    by_cases hn : n = nb
    · subst hn
      obtain ⟨lcu, hlcu⟩ := hm.chains cu _ hm.cubind (ENat.coe_ne_top cd)
      have hlcu2 := hchain_lift lcu cu (Ne.symm hnbcu) hlcu
      refine ⟨nb :: lcu, PrevChain.step nb cu e lcu ((newv : ℕ) : ℕ∞) ((cd : ℕ) : ℕ∞)
        (tadd (dgetD s.td cu (0, 0, 0)) e.params) (dgetD s.td cu (0, 0, 0))
        hlcu2 (dget_dset_self _ _ _) he hnbdef.symm hddnb hcubind2 ?_
        (ENat.coe_ne_top newv) (dget_dset_self _ _ _) ?_ rfl hcusettled2⟩
      · rw [hnewvdef]
        exact_mod_cast rfl
      · rw [htdne cu (Ne.symm hnbcu)]
        exact htdcu
    · obtain ⟨l, hl⟩ := hm.chains n dv (by rw [← hddne n hn]; exact hb) ht
      exact ⟨l, hchain_lift l n hn hl⟩
  refine ⟨?_, ?_, ?_, ?_, ?_, ?_, ?_, ?_, ?_, ?_, ?_, hchains2, hcubind2, hcusettled2, ?_, ?_⟩
  · exact hm.adjv
  · exact hm.gds
  · intro n hn
    exact dget_isSome_dset _ _ _ _ (hm.ddsome n hn)
  · intro n hn
    by_cases hnb : n = nb
    · subst hnb
      exact Or.inl (hcl cu e he)
    · rw [hddne n hnb] at hn
      exact hm.ddmem n hn
  · intro n
    by_cases hnb : n = nb
    · subst hnb
      constructor
      · intro _; rw [hddnb]; rfl
      · intro _; rw [dget_dset_self]; rfl
    · rw [hddne n hnb, htdne n hnb]
      exact hm.tddd n
  · rw [hddne start (Ne.symm hnbstart)]
    exact hm.dstart
  · rw [htdne start (Ne.symm hnbstart)]
    exact hm.tstart
  · constructor
    · intro v
      rw [hpdne start (Ne.symm hnbstart)]
      exact hm.pdstart.1 v
    · intro hsk
      rw [hpdne start (Ne.symm hnbstart)]
      exact hm.pdstart.2 hsk
  · -- hkeys
    intro k n hk
    rcases hent k n hk with hx | hx
    · cases hx
      exact ⟨_, hddnb, le_refl _⟩
    · obtain ⟨dv, hb, hle⟩ := hm.hkeys k n hx
      by_cases hnb : n = nb
      · subst hnb
        refine ⟨_, hddnb, ?_⟩
        have h1 : dgetD s.dd nb ⊤ = dv := by unfold dgetD; rw [hb]; rfl
        rw [h1] at hup
        exact le_trans (le_of_lt hup) hle
      · exact ⟨dv, by rw [hddne n hnb]; exact hb, hle⟩
  · -- hnodup
    exact List.nodup_cons.mpr ⟨hnew_notin, hm.hnodup⟩
  · -- live1
    intro n dv hb ht hncu
    by_cases hnb : n = nb
    · subst hnb
      rw [hddnb] at hb
      cases hb
      exact Or.inl ⟨newv, List.mem_cons_self _ _, rfl⟩
    · rw [hddne n hnb] at hb
      rcases hm.live1 n dv hb ht hncu with hc | hc
      · obtain ⟨k, hk, hke⟩ := hc
        exact Or.inl ⟨k, List.mem_cons_of_mem _ hk, hke⟩
      · right
        intro e' he'
        obtain ⟨dv', hb', hle'⟩ := hc e' he'
        by_cases hnb' : e'.neighbor = nb
        · refine ⟨_, hnb' ▸ hddnb, ?_⟩
          have h1 : dgetD s.dd e'.neighbor ⊤ = dv' := by unfold dgetD; rw [hb']; rfl
          rw [hnb'] at h1
          rw [h1] at hup
          exact le_trans (le_of_lt hup) hle'
        · exact ⟨dv', by rw [hddne _ hnb']; exact hb', hle'⟩
  · -- setdom
    intro n dv hb ht hnc
    by_cases hnb : n = nb
    · subst hnb
      exfalso
      rw [hddnb] at hb
      cases hb
      exact hnc ⟨newv, List.mem_cons_self _ _, rfl⟩
    · rw [hddne n hnb] at hb
      refine hm.setdom n dv hb ht ?_
      rintro ⟨k, hk, hke⟩
      exact hnc ⟨k, List.mem_cons_of_mem _ hk, hke⟩
  · -- hge
    intro km hkm
    rcases List.mem_cons.mp hkm with hx | hx
    · cases hx
      show ((cd : ℕ) : ℕ∞) ≤ ((newv : ℕ) : ℕ∞)
      rw [hnewvdef]
      exact_mod_cast Nat.le_add_right cd (e.w c)
    · exact hm.hge km hx

theorem relaxStep_midInv {c : Fin 3} {start end_id : Int} {gd0 : List (Int × List Edge)}
    {cu : Int} {cd : ℕ} {s : DState} {e : Edge}
    (hcl : ∀ n, ∀ e' ∈ adjOf gd0 n, e'.neighbor ∈ dkeys gd0)
    (hm : MidInv c start end_id gd0 cu cd s) (he : e ∈ adjOf gd0 cu) :
    MidInv c start end_id gd0 cu cd (relaxStep c cu cd s e) := by
  by_cases hup : ((cd + e.w c : ℕ) : ℕ∞) < dgetD s.dd e.neighbor ⊤
  · rw [relaxStep_pos hup]
    exact push_midInv hcl hm he hup
  · rw [relaxStep_neg hup]
    exact hm

theorem relaxAll_midInv {c : Fin 3} {start end_id : Int} {gd0 : List (Int × List Edge)}
    {cu : Int} {cd : ℕ}
    (hcl : ∀ n, ∀ e' ∈ adjOf gd0 n, e'.neighbor ∈ dkeys gd0) :
    ∀ (es : List Edge) (s : DState), MidInv c start end_id gd0 cu cd s →
      (∀ e ∈ es, e ∈ adjOf gd0 cu) → MidInv c start end_id gd0 cu cd (relaxAll c cu cd es s) := by
  intro es
  induction es with
  | nil => intro s hm _; exact hm
  | cons e0 es ih =>
      intro s hm hes
      unfold relaxAll
      simp only [List.foldl_cons]
      exact ih _ (relaxStep_midInv hcl hm (hes e0 (List.mem_cons_self _ _)))
        (fun e he => hes e (List.mem_cons_of_mem _ he))

theorem relaxStep_dd_persist {c : Fin 3} {cu : Int} {cd : ℕ} {s : DState} {e : Edge}
    {n : Int} {dv : ℕ∞} (h : dget s.dd n = some dv) :
    ∃ dv', dget (relaxStep c cu cd s e).dd n = some dv' ∧ dv' ≤ dv := by
  by_cases hup : ((cd + e.w c : ℕ) : ℕ∞) < dgetD s.dd e.neighbor ⊤
  · rw [relaxStep_pos hup]
    by_cases hn : n = e.neighbor
    · subst hn
      refine ⟨_, dget_dset_self _ _ _, ?_⟩
      have h1 : dgetD s.dd e.neighbor ⊤ = dv := by unfold dgetD; rw [h]; rfl
      rw [h1] at hup
      exact le_of_lt hup
    · exact ⟨dv, by rw [dget_dset_ne _ _ _ _ hn]; exact h, le_refl _⟩
  · rw [relaxStep_neg hup]
    exact ⟨dv, h, le_refl _⟩

theorem relaxAll_dd_persist {c : Fin 3} {cu : Int} {cd : ℕ} :
    ∀ (es : List Edge) (s : DState) {n : Int} {dv : ℕ∞}, dget s.dd n = some dv →
      ∃ dv', dget (relaxAll c cu cd es s).dd n = some dv' ∧ dv' ≤ dv := by
  intro es
  induction es with
  | nil => intro s n dv h; exact ⟨dv, h, le_refl _⟩
  | cons e0 es ih =>
      intro s n dv h
      unfold relaxAll
      simp only [List.foldl_cons]
      obtain ⟨dv', hb, hle⟩ := @relaxStep_dd_persist c cu cd s e0 _ _ h
      obtain ⟨dv'', hb', hle'⟩ := ih _ hb
      exact ⟨dv'', hb', le_trans hle' hle⟩

theorem relaxStep_self_closed {c : Fin 3} {cu : Int} {cd : ℕ} {s : DState} {e : Edge} :
    ∃ dv', dget (relaxStep c cu cd s e).dd e.neighbor = some dv' ∧
      dv' ≤ ((cd + e.w c : ℕ) : ℕ∞) := by
  by_cases hup : ((cd + e.w c : ℕ) : ℕ∞) < dgetD s.dd e.neighbor ⊤
  · rw [relaxStep_pos hup]
    exact ⟨_, dget_dset_self _ _ _, le_refl _⟩
  · rw [relaxStep_neg hup]
    cases hb : dget s.dd e.neighbor with
    | none =>
        exfalso
        have h1 : dgetD s.dd e.neighbor ⊤ = ⊤ := by unfold dgetD; rw [hb]; rfl
        rw [h1] at hup
        exact hup (ENat.coe_lt_top _)
    | some dv =>
        refine ⟨dv, rfl, ?_⟩
        have h1 : dgetD s.dd e.neighbor ⊤ = dv := by unfold dgetD; rw [hb]; rfl
        rw [h1] at hup
        exact not_lt.mp hup

theorem relaxAll_closed_all {c : Fin 3} {cu : Int} {cd : ℕ} :
    ∀ (es : List Edge) (s : DState), ∀ e ∈ es,
      ∃ dv', dget (relaxAll c cu cd es s).dd e.neighbor = some dv' ∧
        dv' ≤ ((cd + e.w c : ℕ) : ℕ∞) := by
  intro es
  induction es with
  | nil => intro s e he; cases he
  | cons e0 es ih =>
      intro s e he
      unfold relaxAll
      simp only [List.foldl_cons]
      rcases List.mem_cons.mp he with rfl | he'
      · obtain ⟨dv', hb, hle⟩ := @relaxStep_self_closed c cu cd s e
        obtain ⟨dv'', hb', hle'⟩ := relaxAll_dd_persist es _ hb
        exact ⟨dv'', hb', le_trans hle' hle⟩
      · exact ih _ e he'

theorem dget_isSome_of_mem {κ ν : Type} [DecidableEq κ] {d : List (κ × ν)} {k : κ}
    (h : k ∈ dkeys d) : (dget d k).isSome := by
  induction d with
  | nil => cases h
  | cons p t ih =>
      obtain ⟨a, b⟩ := p
      by_cases hk : k = a
      · simp [dget, hk]
      · simp only [dget, hk, if_false]
        rcases List.mem_cons.mp h with h' | h'
        · exact absurd h' hk
        · exact ih h'

theorem popped_bind {c : Fin 3} {start end_id : Int} {gd0 : List (Int × List Edge)}
    {s : DState} {cd : ℕ} {cu : Int} {rest : List (ℕ × Int)}
    (hi : LoopInv c start end_id gd0 s)
    (hpop : heapPop s.heap = some ((cd, cu), rest))
    (hvalid : ¬ s.dmap cu < (cd : ℕ∞)) : dget s.dd cu = some ((cd : ℕ) : ℕ∞) := by
  obtain ⟨dv, hb, hle⟩ := hi.hkeys cd cu (heapPop_mem hpop)
  have h1 : s.dmap cu = dv := by unfold DState.dmap dgetD; rw [hb]; rfl
  have h2 : ((cd : ℕ) : ℕ∞) ≤ dv := by rw [← h1]; exact not_lt.mp hvalid
  rw [hb, le_antisymm hle h2]

/-- A valid pop of a non-target node `cu` moves the invariant to the
mid-expansion form on the state with the entry removed and the `defaultdict`
read performed. -/
theorem pop_midInv {c : Fin 3} {start end_id : Int} {gd0 : List (Int × List Edge)}
    {s : DState} {cd : ℕ} {cu : Int} {rest : List (ℕ × Int)}
    (hi : LoopInv c start end_id gd0 s)
    (hpop : heapPop s.heap = some ((cd, cu), rest))
    (hvalid : ¬ s.dmap cu < (cd : ℕ∞)) :
    MidInv c start end_id gd0 cu cd { s with heap := rest, gd := (ddRead s.gd cu).2 } := by
  have hbind := popped_bind hi hpop hvalid
  have hrest := heapPop_rest hpop
  have hmem := heapPop_mem hpop
  have hmin := heapPop_le hpop
  have hsub : ∀ x ∈ rest, x ∈ s.heap := by
    intro x hx
    rw [hrest] at hx
    exact List.erase_subset _ _ hx
  have hkeep : ∀ x ∈ s.heap, x ≠ ((cd, cu) : ℕ × Int) → x ∈ rest := by
    intro x hx hne
    rw [hrest]
    exact (List.mem_erase_of_ne hne).mpr hx
  have hnotin : ((cd, cu) : ℕ × Int) ∉ rest := by
    rw [hrest]
    exact hi.hnodup.not_mem_erase
  have hset_pers : ∀ m, Settled s m →
      Settled ({ s with heap := rest, gd := (ddRead s.gd cu).2 }) m := by
    intro m hm
    exact settled_mono hm rfl (fun k hk => hsub _ hk)
  have hlift : ∀ l u, PrevChain c gd0 start s l u →
      PrevChain c gd0 start ({ s with heap := rest, gd := (ddRead s.gd cu).2 }) l u := by
    intro l u hch
    exact prevChain_mono hch (fun x _ => rfl) (fun x _ => rfl) (fun x _ => rfl)
      (fun x _ hs => hset_pers x hs)
  refine ⟨?_, ?_, hi.ddsome, hi.ddmem, hi.tddd, hi.dstart, hi.tstart, hi.pdstart, ?_, ?_,
    ?_, ?_, hbind, ?_, ?_, ?_⟩
  · intro n
    rw [ddRead_snd_dgetD]
    exact hi.adjv n
  · -- gds
    show (ddRead s.gd cu).2 = gd0 ∨ (start ∉ dkeys gd0 ∧ (ddRead s.gd cu).2 = gd0 ++ [(start, [])])
    unfold ddRead
    cases hg : dget s.gd cu with
    | some v => exact hi.gds
    | none =>
        have hsome : (dget s.dd cu).isSome := by rw [hbind]; rfl
        have hcu : cu ∈ dkeys gd0 ∨ cu = start := hi.ddmem cu hsome
        rcases hcu with hcu | hcu
        · exfalso
          have h0 : (dget gd0 cu).isSome := dget_isSome_of_mem hcu
          rcases hi.gds with hgd | ⟨hnk, hgd⟩
          · rw [hgd] at hg
            rw [hg] at h0
            cases h0
          · rw [hgd] at hg
            cases hx : dget gd0 cu with
            | none => rw [hx] at h0; cases h0
            | some w => rw [dget_append_left _ _ _ _ hx] at hg; cases hg
        · subst hcu
          rcases hi.gds with hgd | ⟨hnk, hgd⟩
          · rw [hgd]
            refine Or.inr ⟨?_, rfl⟩
            intro hk
            have h0 : (dget gd0 cu).isSome := dget_isSome_of_mem hk
            rw [hgd] at hg
            rw [hg] at h0
            cases h0
          · exfalso
            rw [hgd] at hg
            cases hx : dget gd0 cu with
            | none =>
                rw [dget_append_right _ _ _ hx] at hg
                simp [dget] at hg
            | some w => rw [dget_append_left _ _ _ _ hx] at hg; cases hg
  · -- hkeys
    intro k n hk
    exact hi.hkeys k n (hsub _ hk)
  · -- hnodup
    show rest.Nodup
    rw [hrest]
    exact hi.hnodup.erase _
  · -- live1
    intro n dv hb ht hncu
    rcases hi.live n dv hb ht with hc | hc
    · obtain ⟨k, hk, hke⟩ := hc
      refine Or.inl ⟨k, hkeep _ hk ?_, hke⟩
      intro hx
      cases hx
      exact hncu rfl
    · exact Or.inr hc
  · -- chains
    intro n dv hb ht
    obtain ⟨l, hl⟩ := hi.chains n dv hb ht
    exact ⟨l, hlift l n hl⟩
  · -- cusettled
    refine ⟨((cd : ℕ) : ℕ∞), hbind, ENat.coe_ne_top cd, ?_⟩
    rintro ⟨k, hk, hke⟩
    have hkcd : k = cd := by exact_mod_cast hke
    subst hkcd
    exact hnotin hk
  · -- setdom
    intro n dv hb ht hnc
    by_cases hc : HasCur s n dv
    · obtain ⟨k, hk, hke⟩ := hc
      by_cases hx : ((k, n) : ℕ × Int) = (cd, cu)
      · cases hx
        rw [hbind] at hb
        cases hb
        exact le_refl _
      · exact absurd ⟨k, hkeep _ hk hx, hke⟩ hnc
    · have := hi.dom n dv hb ht hc ((cd, cu)) hmem
      exact this
  · -- hge
    intro km hkm
    have := hmin km (hsub _ hkm)
    exact_mod_cast pairLe_fst this

/-- Reassembling the full invariant once the expanded node is closed. -/
theorem midInv_to_loopInv {c : Fin 3} {start end_id : Int} {gd0 : List (Int × List Edge)}
    {cu : Int} {cd : ℕ} {s : DState}
    (hm : MidInv c start end_id gd0 cu cd s)
    (hclosed : Closed c gd0 s cu ((cd : ℕ) : ℕ∞)) :
    LoopInv c start end_id gd0 s := by
  refine ⟨hm.adjv, hm.gds, hm.ddsome, hm.ddmem, hm.tddd, hm.dstart, hm.tstart, hm.pdstart,
    hm.hkeys, hm.hnodup, ?_, hm.chains, ?_⟩
  · intro n dv hb ht
    by_cases hn : n = cu
    · subst hn
      rw [hm.cubind] at hb
      cases hb
      exact Or.inr hclosed
    · exact hm.live1 n dv hb ht hn
  · intro n dv hb ht hnc km hkm
    exact le_trans (hm.setdom n dv hb ht hnc) (hm.hge km hkm)

/-- A stale pop (line 55–56) preserves the invariant. -/
theorem skip_loopInv {c : Fin 3} {start end_id : Int} {gd0 : List (Int × List Edge)}
    {s : DState} {cd : ℕ} {cu : Int} {rest : List (ℕ × Int)}
    (hi : LoopInv c start end_id gd0 s)
    (hpop : heapPop s.heap = some ((cd, cu), rest))
    (hstale : s.dmap cu < (cd : ℕ∞)) :
    LoopInv c start end_id gd0 { s with heap := rest } := by
  have hrest := heapPop_rest hpop
  have hsub : ∀ x ∈ rest, x ∈ s.heap := by
    intro x hx
    rw [hrest] at hx
    exact List.erase_subset _ _ hx
  have hkeep : ∀ x ∈ s.heap, x ≠ ((cd, cu) : ℕ × Int) → x ∈ rest := by
    intro x hx hne
    rw [hrest]
    exact (List.mem_erase_of_ne hne).mpr hx
  have hstale2 : ∀ (k : ℕ) (n : Int), (k, n) ∈ s.heap → ((k : ℕ∞)) = dgetD s.dd n ⊤ →
      ((k, n) : ℕ × Int) ≠ (cd, cu) := by
    intro k n hk hke hx
    cases hx
    exact absurd hstale (by rw [show s.dmap cu = ((cd : ℕ) : ℕ∞) from hke.symm]; exact lt_irrefl _)
  have hset_pers : ∀ m, Settled s m → Settled ({ s with heap := rest }) m := by
    intro m hm
    exact settled_mono hm rfl (fun k hk => hsub _ hk)
  refine ⟨hi.adjv, hi.gds, hi.ddsome, hi.ddmem, hi.tddd, hi.dstart, hi.tstart, hi.pdstart,
    ?_, ?_, ?_, ?_, ?_⟩
  · intro k n hk
    exact hi.hkeys k n (hsub _ hk)
  · show rest.Nodup
    rw [hrest]
    exact hi.hnodup.erase _
  · -- live
    intro n dv hb ht
    rcases hi.live n dv hb ht with hc | hc
    · obtain ⟨k, hk, hke⟩ := hc
      refine Or.inl ⟨k, hkeep _ hk ?_, hke⟩
      refine hstale2 k n hk ?_
      rw [hke]
      unfold dgetD
      rw [hb]
      rfl
    · exact Or.inr hc
  · intro n dv hb ht
    obtain ⟨l, hl⟩ := hi.chains n dv hb ht
    exact ⟨l, prevChain_mono hl (fun x _ => rfl) (fun x _ => rfl) (fun x _ => rfl)
      (fun x _ hs => hset_pers x hs)⟩
  · -- dom
    intro n dv hb ht hnc km hkm
    refine hi.dom n dv hb ht ?_ km (hsub _ hkm)
    rintro ⟨k, hk, hke⟩
    refine hnc ⟨k, hkeep _ hk ?_, hke⟩
    refine hstale2 k n hk ?_
    rw [hke]
    unfold dgetD
    rw [hb]
    rfl

/-- Breaking at the target (lines 58–59) yields the post-state facts. -/
theorem break_loopPost {c : Fin 3} {start end_id : Int} {gd0 : List (Int × List Edge)}
    {s : DState} {cd : ℕ} {rest : List (ℕ × Int)}
    (hi : LoopInv c start end_id gd0 s)
    (hpop : heapPop s.heap = some ((cd, end_id), rest))
    (hvalid : ¬ s.dmap end_id < (cd : ℕ∞)) :
    LoopPost c start end_id gd0 { s with heap := rest } := by
  have hbind := popped_bind hi hpop hvalid
  have hmin := heapPop_le hpop
  have hrest := heapPop_rest hpop
  have hsub : ∀ x ∈ rest, x ∈ s.heap := by
    intro x hx
    rw [hrest] at hx
    exact List.erase_subset _ _ hx
  have hset_pers : ∀ m, Settled s m → Settled ({ s with heap := rest }) m := by
    intro m hm
    exact settled_mono hm rfl (fun k hk => hsub _ hk)
  refine ⟨hi.adjv, hi.gds, hi.ddsome, hi.ddmem, hi.tddd, hi.dstart, hi.tstart, hi.pdstart,
    ?_, ?_, ?_⟩
  · intro n dv hb ht
    obtain ⟨l, hl⟩ := hi.chains n dv hb ht
    exact ⟨l, prevChain_mono hl (fun x _ => rfl) (fun x _ => rfl) (fun x _ => rfl)
      (fun x _ hs => hset_pers x hs)⟩
  · -- clo
    intro n dv hb ht
    rcases hi.live n dv hb ht with hc | hc
    · obtain ⟨k, hk, hke⟩ := hc
      refine Or.inr ⟨((cd : ℕ) : ℕ∞), hbind, ?_⟩
      have h1 := pairLe_fst (hmin _ hk)
      rw [← hke]
      exact_mod_cast h1
    · exact Or.inl hc
  · exact Or.inr ⟨((cd : ℕ) : ℕ∞), hbind, ENat.coe_ne_top cd⟩

/-- Exhausting the heap yields the post-state facts. -/
theorem empty_loopPost {c : Fin 3} {start end_id : Int} {gd0 : List (Int × List Edge)}
    {s : DState} (hi : LoopInv c start end_id gd0 s) (hpop : heapPop s.heap = none) :
    LoopPost c start end_id gd0 s := by
  have hemp : s.heap = [] := (heapPop_none_iff _).mp hpop
  have hnc : ∀ n dv, ¬ HasCur s n dv := by
    rintro n dv ⟨k, hk, _⟩
    rw [hemp] at hk
    cases hk
  refine ⟨hi.adjv, hi.gds, hi.ddsome, hi.ddmem, hi.tddd, hi.dstart, hi.tstart, hi.pdstart,
    hi.chains, ?_, ?_⟩
  · intro n dv hb ht
    rcases hi.live n dv hb ht with hc | hc
    · exact absurd hc (hnc n dv)
    · exact Or.inl hc
  · left
    intro n dv hb ht
    rcases hi.live n dv hb ht with hc | hc
    · exact absurd hc (hnc n dv)
    · exact hc

/-- The main loop theorem: from any state satisfying the invariant, the loop
ends in a state satisfying the post-condition. -/
theorem dloop_post {c : Fin 3} {start end_id : Int} {gd0 : List (Int × List Edge)}
    {univ : List Int}
    (hcl : ∀ n, ∀ e' ∈ adjOf gd0 n, e'.neighbor ∈ dkeys gd0) :
    ∀ (s : DState) (hu : TargetsIn univ s.gd), LoopInv c start end_id gd0 s →
      LoopPost c start end_id gd0 (dloop c end_id univ s hu) := by
  refine dloop.induct c end_id univ
    (fun s hu => LoopInv c start end_id gd0 s →
      LoopPost c start end_id gd0 (dloop c end_id univ s hu)) ?_ ?_ ?_ ?_
  · intro s hu hpop hi
    rw [dloop_none hpop]
    exact empty_loopPost hi hpop
  · intro s hu cd cu rest hpop hstale ih hi
    rw [dloop_skip hpop hstale hu]
    exact ih (skip_loopInv hi hpop hstale)
  · intro s hu cd rest hpop hvalid hi
    rw [dloop_break hpop hvalid rfl]
    exact break_loopPost hi hpop hvalid
  · intro s hu cd cu rest hpop hvalid hne ih hi
    have hu2 : TargetsIn univ (relaxAll c cu cd (ddRead s.gd cu).1
        { s with heap := rest, gd := (ddRead s.gd cu).2 } : DState).gd := by
      rw [relaxAll_gd]
      exact ddRead_targets cu hu
    rw [dloop_go hpop hvalid hne hu2]
    have hmid := pop_midInv hi hpop hvalid
    have hes : (ddRead s.gd cu).1 = adjOf gd0 cu := by
      rw [ddRead_fst]
      exact hi.adjv cu
    have hmid2 := relaxAll_midInv hcl (ddRead s.gd cu).1
      { s with heap := rest, gd := (ddRead s.gd cu).2 } hmid
      (fun e he => by rw [hes] at he; exact he)
    have hclosed : Closed c gd0 (relaxAll c cu cd (ddRead s.gd cu).1
        { s with heap := rest, gd := (ddRead s.gd cu).2 }) cu ((cd : ℕ) : ℕ∞) := by
      intro e he
      obtain ⟨dv', hb, hle⟩ := relaxAll_closed_all (ddRead s.gd cu).1
        ({ s with heap := rest, gd := (ddRead s.gd cu).2 }) e (by rw [hes]; exact he)
      refine ⟨dv', hb, ?_⟩
      rw [show ((cd : ℕ) : ℕ∞) + ((e.w c : ℕ) : ℕ∞) = ((cd + e.w c : ℕ) : ℕ∞) from
        (Nat.cast_add cd (e.w c)).symm]
      exact hle
    exact ih (midInv_to_loopInv hmid2 hclosed)

/-- The initial solver state satisfies the loop invariant. -/
theorem init_loopInv (c : Fin 3) (start end_id : Int) (g : CityGraph) :
    LoopInv c start end_id g.graph (dInit g start) := by
  have hdd : ∀ n, n ≠ start →
      dget (dInit g start).dd n = (dget g.graph n).map fun _ => (⊤ : ℕ∞) := by
    intro n hn
    show dget (dset _ start 0) n = _
    rw [dget_dset_ne _ _ _ _ hn, dget_mapConst]
  have htd : ∀ n, n ≠ start →
      dget (dInit g start).td n = (dget g.graph n).map fun _ => ((0, 0, 0) : Totals) := by
    intro n hn
    show dget (dset _ start (0, 0, 0)) n = _
    rw [dget_dset_ne _ _ _ _ hn, dget_mapConst]
  have hddstart : dget (dInit g start).dd start = some 0 := dget_dset_self _ _ _
  have htdstart : dget (dInit g start).td start = some (0, 0, 0) := dget_dset_self _ _ _
  have hpd : dget (dInit g start).pd start = (dget g.graph start).map fun _ => none := by
    show dget (g.graph.map fun p => (p.1, (none : Option Int))) start = _
    rw [dget_mapConst]
  refine ⟨fun n => rfl, Or.inl rfl, ?_, ?_, ?_, hddstart, htdstart, ⟨?_, ?_⟩, ?_, ?_, ?_, ?_, ?_⟩
  · -- ddsome
    intro n hn
    by_cases hs : n = start
    · rw [hs, hddstart]; rfl
    · rw [hdd n hs]
      rcases hn with hn | hn
      · have := dget_isSome_of_mem hn
        cases hx : dget g.graph n with
        | none => rw [hx] at this; cases this
        | some v => rfl
      · exact absurd hn hs
  · -- ddmem
    intro n hn
    by_cases hs : n = start
    · exact Or.inr hs
    · rw [hdd n hs] at hn
      cases hx : dget g.graph n with
      | none => rw [hx] at hn; cases hn
      | some v => exact Or.inl (dget_mem_keys hx)
  · -- tddd
    intro n
    by_cases hs : n = start
    · rw [hs, hddstart, htdstart]
      simp
    · rw [hdd n hs, htd n hs]
      cases hx : dget g.graph n <;> simp
  · -- pdstart.1
    intro v
    rw [hpd]
    cases hx : dget g.graph start <;> simp
  · -- pdstart.2
    intro hs
    rw [hpd]
    have := dget_isSome_of_mem hs
    cases hx : dget g.graph start with
    | none => rw [hx] at this; cases this
    | some v => rfl
  · -- hkeys
    intro k n hk
    rcases List.mem_singleton.mp hk with hx
    cases hx
    exact ⟨0, hddstart, by simp⟩
  · -- hnodup
    exact List.nodup_singleton _
  · -- live
    intro n dv hb ht
    by_cases hs : n = start
    · subst hs
      rw [hddstart] at hb
      cases hb
      exact Or.inl ⟨0, List.mem_singleton.mpr rfl, by simp⟩
    · rw [hdd n hs] at hb
      cases hx : dget g.graph n with
      | none => rw [hx] at hb; cases hb
      | some v =>
          rw [hx] at hb
          cases hb
          exact absurd rfl ht
  · -- chains
    intro n dv hb ht
    by_cases hs : n = start
    · subst hs
      refine ⟨[n], PrevChain.base hddstart htdstart ?_⟩
      intro v
      rw [hpd]
      cases hx : dget g.graph n <;> simp
    · rw [hdd n hs] at hb
      cases hx : dget g.graph n with
      | none => rw [hx] at hb; cases hb
      | some v =>
          rw [hx] at hb
          cases hb
          exact absurd rfl ht
  · -- dom
    intro n dv hb ht hnc
    by_cases hs : n = start
    · subst hs
      rw [hddstart] at hb
      cases hb
      exact absurd ⟨0, List.mem_singleton.mpr rfl, by simp⟩ hnc
    · rw [hdd n hs] at hb
      cases hx : dget g.graph n with
      | none => rw [hx] at hb; cases hb
      | some v =>
          rw [hx] at hb
          cases hb
          exact absurd rfl ht

/-! ## Walks, edge choices, sums -/

/-- `es` realizes the node list `p` as a walk: one actual adjacency entry per
consecutive pair of nodes. -/
inductive EdgeChoice (gd0 : List (Int × List Edge)) : List Int → List Edge → Prop
  | single (u : Int) : EdgeChoice gd0 [u] []
  | cons (u v : Int) (e : Edge) (p : List Int) (es : List Edge) :
      e ∈ adjOf gd0 u → e.neighbor = v → EdgeChoice gd0 (v :: p) es →
      EdgeChoice gd0 (u :: v :: p) (e :: es)

/-- Componentwise sum of the weight triples of a list of edges. -/
def tSum (es : List Edge) : Totals :=
  ((es.map Edge.dist).sum, (es.map Edge.time).sum, (es.map Edge.cost).sum)

/-- Sum of the selected weights of a list of edges. -/
def wSum (c : Fin 3) (es : List Edge) : ℕ := (es.map fun e => e.w c).sum

theorem tsel_tSum (c : Fin 3) (es : List Edge) : tsel (tSum es) c = wSum c es := by
  fin_cases c <;> simp [tSum, wSum, tsel, Edge.w]

theorem tSum_append (es : List Edge) (e : Edge) :
    tSum (es ++ [e]) = tadd (tSum es) e.params := by
  simp [tSum, tadd, Edge.params]

theorem wSum_append (c : Fin 3) (es : List Edge) (e : Edge) :
    wSum c (es ++ [e]) = wSum c es + e.w c := by
  simp [wSum]

theorem edgeChoice_append {gd0 : List (Int × List Edge)} {p : List Int} {es : List Edge}
    (h : EdgeChoice gd0 p es) {v u : Int} {e : Edge}
    (hlast : p.getLast? = some v) (he : e ∈ adjOf gd0 v) (hnb : e.neighbor = u) :
    EdgeChoice gd0 (p ++ [u]) (es ++ [e]) := by
  induction h with
  | single w =>
      rcases Option.some.injEq .. ▸ hlast with rfl
      exact EdgeChoice.cons w u e [] [] he hnb (EdgeChoice.single u)
  | cons w v' e' p' es' he' hnb' hrest ih =>
      have hl2 : (v' :: p').getLast? = some v := by
        rwa [List.getLast?_cons_cons] at hlast
      exact EdgeChoice.cons w v' e' _ _ he' hnb' (ih hl2)

theorem edgeChoice_head {gd0 : List (Int × List Edge)} {p : List Int} {es : List Edge}
    (h : EdgeChoice gd0 p es) : ∃ u p', p = u :: p' := by
  cases h with
  | single u => exact ⟨u, [], rfl⟩
  | cons u v e p es _ _ _ => exact ⟨u, v :: p, rfl⟩

/-- Extract, from a `prev`-chain, the walk it denotes (in start-to-node
order), its edge choice, and the telescoped totals. -/
theorem chain_to_path {c : Fin 3} {gd0 : List (Int × List Edge)} {start : Int} {s : DState} :
    ∀ {l : List Int} {u : Int}, PrevChain c gd0 start s l u →
      ∃ es, EdgeChoice gd0 l.reverse es ∧
        l.reverse.head? = some start ∧ l.reverse.getLast? = some u ∧
        (∀ tu, dget s.td u = some tu → tu = tSum es) ∧
        (∀ du, dget s.dd u = some du → du = ((wSum c es : ℕ) : ℕ∞)) := by
  intro l u hch
  induction hch with
  | base h1 h2 h3 =>
      refine ⟨[], EdgeChoice.single start, rfl, rfl, ?_, ?_⟩
      · intro tu htu
        rw [h2] at htu
        cases htu
        rfl
      · intro du hdu
        rw [h1] at hdu
        cases hdu
        rfl
  | step u v e l du dv tu tv hch hpd1 he hnb hdu hdv hde hdt htu htv hte hsv ih =>
      obtain ⟨es, hec, hh, hl, htfact, hdfact⟩ := ih
      refine ⟨es ++ [e], ?_, ?_, ?_, ?_, ?_⟩
      · show EdgeChoice gd0 (u :: l).reverse (es ++ [e])
        rw [List.reverse_cons]
        exact edgeChoice_append hec hl he hnb
      · show ((u :: l).reverse).head? = some start
        rw [List.reverse_cons]
        obtain ⟨w, p', hp'⟩ := edgeChoice_head hec
        rw [hp'] at hh ⊢
        simpa using hh
      · show ((u :: l).reverse).getLast? = some u
        rw [List.reverse_cons, List.getLast?_concat]
      · intro tu' htu'
        rw [htu] at htu'
        cases htu'
        rw [tSum_append, hte, htfact tv htv]
      · intro du' hdu'
        rw [hdu] at hdu'
        cases hdu'
        rw [wSum_append, hde, hdfact dv hdv]
        push_cast
        ring

/-- Upper bound along any walk ending at the target: at loop exit, the
recorded target distance is at most the accumulated cost of any realized walk
from a node whose recorded distance is at most `acc`. -/
theorem post_bound_aux {c : Fin 3} {start end_id : Int} {gd0 : List (Int × List Edge)}
    {s : DState} (hp : LoopPost c start end_id gd0 s) :
    ∀ {p : List Int} {es : List Edge}, EdgeChoice gd0 p es →
      ∀ {u : Int} {du acc : ℕ∞}, p.head? = some u → p.getLast? = some end_id →
        dget s.dd u = some du → du ≤ acc →
        dgetD s.dd end_id ⊤ ≤ acc + ((wSum c es : ℕ) : ℕ∞) := by
  intro p es hec
  induction hec with
  | single w =>
      intro u du acc hh hl hb hle
      have hu : w = u := by simpa using hh
      subst hu
      have he : w = end_id := by simpa using hl
      subst he
      have hx : dgetD s.dd w ⊤ = du := by unfold dgetD; rw [hb]; rfl
      rw [hx]
      exact le_trans hle (le_add_right (le_refl acc))
  | cons w v e p' es' he hnb hrest ih =>
      intro u du acc hh hl hb hle
      have hu : w = u := by simpa using hh
      subst hu
      by_cases hdt : du = ⊤
      · have hacc : acc = ⊤ := top_le_iff.mp (hdt ▸ hle)
        rw [hacc]
        simp
      rcases hp.clo w du hb hdt with hc | ⟨de, hbe, hde⟩
      · obtain ⟨dv', hb', hle'⟩ := hc e he
        have hl2 : (v :: p').getLast? = some end_id := by
          rwa [List.getLast?_cons_cons] at hl
        have hb2 : dget s.dd v = some dv' := by rw [← hnb]; exact hb'
        have hle2 : dv' ≤ acc + ((e.w c : ℕ) : ℕ∞) :=
          le_trans hle' (add_le_add_right hle _)
        have := ih rfl hl2 hb2 hle2
        refine le_trans this (le_of_eq ?_)
        rw [show wSum c (e :: es') = e.w c + wSum c es' from by simp [wSum]]
        push_cast
        ring
      · have : dgetD s.dd end_id ⊤ = de := by unfold dgetD; rw [hbe]; rfl
        rw [this]
        exact le_trans hde (le_trans hle (le_add_right (le_refl acc)))

/-- Optimality: at loop exit the recorded target distance is at most the
selected-criterion cost of every realized walk from `start` to the target. -/
theorem post_walk_bound {c : Fin 3} {start end_id : Int} {gd0 : List (Int × List Edge)}
    {s : DState} (hp : LoopPost c start end_id gd0 s)
    {p : List Int} {es : List Edge} (hec : EdgeChoice gd0 p es)
    (hh : p.head? = some start) (hl : p.getLast? = some end_id) :
    dgetD s.dd end_id ⊤ ≤ ((wSum c es : ℕ) : ℕ∞) := by
  have := post_bound_aux hp hec hh hl hp.dstart (le_refl 0)
  rwa [zero_add] at this

/-- Completeness: a realized walk from `start` to the target forces a finite
recorded target distance at loop exit. -/
theorem post_walk_reach {c : Fin 3} {start end_id : Int} {gd0 : List (Int × List Edge)}
    {s : DState} (hp : LoopPost c start end_id gd0 s)
    {p : List Int} {es : List Edge} (hec : EdgeChoice gd0 p es)
    (hh : p.head? = some start) (hl : p.getLast? = some end_id) :
    ∃ de, dget s.dd end_id = some de ∧ de ≠ ⊤ := by
  have hb := post_walk_bound hp hec hh hl
  cases hx : dget s.dd end_id with
  | none =>
      exfalso
      have : dgetD s.dd end_id ⊤ = ⊤ := by unfold dgetD; rw [hx]; rfl
      rw [this] at hb
      exact (ENat.coe_ne_top _) (top_le_iff.mp hb)
  | some de =>
      refine ⟨de, rfl, ?_⟩
      intro ht
      have : dgetD s.dd end_id ⊤ = de := by unfold dgetD; rw [hx]; rfl
      rw [this, ht] at hb
      exact (ENat.coe_ne_top _) (top_le_iff.mp hb)

/-! ## Chain determinism, acyclicity, and reconstruction -/

theorem chain_unique {c : Fin 3} {gd0 : List (Int × List Edge)} {start : Int} {s : DState} :
    ∀ {l1 : List Int} {u : Int}, PrevChain c gd0 start s l1 u →
      ∀ {l2 : List Int}, PrevChain c gd0 start s l2 u → l1 = l2 := by
  intro l1 u h1
  induction h1 with
  | base hb1 hb2 hb3 =>
      intro l2 h2
      cases h2 with
      | base _ _ _ => rfl
      | step u v e l du dv tu tv hch hpd1 he hnb hdu hdv hde hdt htu htv hte hsv =>
          exact absurd hpd1 (hb3 v)
  | step u v e l du dv tu tv hch hpd1 he hnb hdu hdv hde hdt htu htv hte hsv ih =>
      intro l2 h2
      cases h2 with
      | base hb1 hb2 hb3 => exact absurd hpd1 (hb3 v)
      | step _ v' e' l' du' dv' tu' tv' hch' hpd1' he' hnb' hdu' hdv' hde' hdt' htu' htv' hte' hsv' =>
          have hv : v = v' := by
            have h0 := hpd1.symm.trans hpd1'
            exact Option.some_injective _ (Option.some_injective _ h0)
          subst hv
          rw [ih hch']

theorem chain_suffix {c : Fin 3} {gd0 : List (Int × List Edge)} {start : Int} {s : DState} :
    ∀ {l : List Int} {u : Int}, PrevChain c gd0 start s l u →
      ∀ x ∈ l, ∃ l', PrevChain c gd0 start s l' x ∧ l' <:+ l := by
  intro l u h
  induction h with
  | base hb1 hb2 hb3 =>
      intro x hx
      rcases List.mem_singleton.mp hx with rfl
      exact ⟨[x], PrevChain.base hb1 hb2 hb3, List.suffix_refl _⟩
  | step u v e l du dv tu tv hch hpd1 he hnb hdu hdv hde hdt htu htv hte hsv ih =>
      intro x hx
      rcases List.mem_cons.mp hx with rfl | hx'
      · exact ⟨x :: l, PrevChain.step x v e l du dv tu tv hch hpd1 he hnb hdu hdv hde hdt
          htu htv hte hsv, List.suffix_refl _⟩
      · obtain ⟨l', hch', hsuf⟩ := ih x hx'
        exact ⟨l', hch', hsuf.trans (List.suffix_cons _ _)⟩

theorem chain_nodup {c : Fin 3} {gd0 : List (Int × List Edge)} {start : Int} {s : DState} :
    ∀ {l : List Int} {u : Int}, PrevChain c gd0 start s l u → l.Nodup := by
  intro l u h
  induction h with
  | base _ _ _ => exact List.nodup_singleton _
  | step u v e l du dv tu tv hch hpd1 he hnb hdu hdv hde hdt htu htv hte hsv ih =>
      refine List.nodup_cons.mpr ⟨?_, ih⟩
      intro hu
      obtain ⟨l', hch', hsuf⟩ := chain_suffix hch u hu
      have heq : l' = u :: l :=
        chain_unique hch' (PrevChain.step u v e l du dv tu tv hch hpd1 he hnb hdu hdv hde
          hdt htu htv hte hsv)
      have hlen := hsuf.length_le
      rw [heq] at hlen
      simp only [List.length_cons] at hlen
      omega

theorem chain_keys {c : Fin 3} {gd0 : List (Int × List Edge)} {start : Int} {s : DState}
    (hps : dget s.pd start = some none) :
    ∀ {l : List Int} {u : Int}, PrevChain c gd0 start s l u →
      ∀ x ∈ l, (dget s.pd x).isSome := by
  intro l u h
  induction h with
  | base _ _ _ =>
      intro x hx
      rcases List.mem_singleton.mp hx with rfl
      rw [hps]
      rfl
  | step u v e l du dv tu tv hch hpd1 he hnb hdu hdv hde hdt htu htv hte hsv ih =>
      intro x hx
      rcases List.mem_cons.mp hx with rfl | hx'
      · rw [hpd1]; rfl
      · exact ih x hx'

theorem chain_length_le {c : Fin 3} {gd0 : List (Int × List Edge)} {start : Int} {s : DState}
    (hps : dget s.pd start = some none)
    {l : List Int} {u : Int} (h : PrevChain c gd0 start s l u) : l.length ≤ s.pd.length := by
  classical
  have hnd := chain_nodup h
  have hsub : ∀ x ∈ l, x ∈ dkeys s.pd := by
    intro x hx
    have := chain_keys hps h x hx
    cases hg : dget s.pd x with
    | none => rw [hg] at this; cases this
    | some v => exact dget_mem_keys hg
  calc l.length = l.toFinset.card := (List.toFinset_card_of_nodup hnd).symm
    _ ≤ (dkeys s.pd).toFinset.card := by
        apply Finset.card_le_card
        intro x hx
        rw [List.mem_toFinset] at hx ⊢
        exact hsub x hx
    _ ≤ (dkeys s.pd).length := (dkeys s.pd).toFinset_card_le
    _ = s.pd.length := by simp [dkeys]

/-- Success of path reconstruction along a chain, given enough fuel and the
`prev[start] = None` binding. -/
theorem chain_buildPath {c : Fin 3} {gd0 : List (Int × List Edge)} {start : Int} {s : DState}
    (hps : dget s.pd start = some none) :
    ∀ {l : List Int} {u : Int}, PrevChain c gd0 start s l u →
      ∀ (fuel : ℕ) (acc : List Int), l.length ≤ fuel →
        buildPath s.pd fuel u acc = some (acc ++ l) := by
  intro l u h
  induction h with
  | base hb1 hb2 hb3 =>
      intro fuel acc hf
      cases fuel with
      | zero => simp at hf
      | succ f =>
          rw [buildPath, hps]
  | step u v e l du dv tu tv hch hpd1 he hnb hdu hdv hde hdt htu htv hte hsv ih =>
      intro fuel acc hf
      cases fuel with
      | zero => simp at hf
      | succ f =>
          rw [buildPath, hpd1]
          have hlen : l.length ≤ f := by
            simp only [List.length_cons] at hf
            omega
          show buildPath s.pd f v (acc ++ [u]) = some (acc ++ u :: l)
          rw [ih f (acc ++ [u]) hlen]
          simp

/-- If reconstruction succeeds at all, it returns exactly the chain. -/
theorem buildPath_chain_eq {c : Fin 3} {gd0 : List (Int × List Edge)} {start : Int}
    {s : DState} :
    ∀ {l : List Int} {u : Int}, PrevChain c gd0 start s l u →
      ∀ {fuel : ℕ} {acc res : List Int}, buildPath s.pd fuel u acc = some res →
        res = acc ++ l := by
  intro l u h
  induction h with
  | base hb1 hb2 hb3 =>
      intro fuel acc res hr
      cases fuel with
      | zero => cases hr
      | succ f =>
          rw [buildPath] at hr
          cases hg : dget s.pd start with
          | none => rw [hg] at hr; cases hr
          | some o =>
              cases o with
              | none =>
                  rw [hg] at hr
                  dsimp only at hr
                  cases hr
                  rfl
              | some v => exact absurd hg (hb3 v)
  | step u v e l du dv tu tv hch hpd1 he hnb hdu hdv hde hdt htu htv hte hsv ih =>
      intro fuel acc res hr
      cases fuel with
      | zero => cases hr
      | succ f =>
          rw [buildPath, hpd1] at hr
          dsimp only at hr
          rw [ih hr]
          simp

/-! ## The solver's run and its post-condition -/

/-- The final loop state of a `find_optimal_path` call. -/
def dloopRun (g : CityGraph) (start_id end_id : Int) (c : Fin 3) : DState :=
  dloop c end_id (targetsOf g.graph) (dInit g start_id) (targetsIn_targetsOf g.graph)

theorem find_optimal_path_eq_run (g : CityGraph) (start_id end_id : Int) (c : Fin 3) :
    find_optimal_path g start_id end_id c = dFinish g (dloopRun g start_id end_id c) end_id :=
  rfl

/-- Closure of the adjacency under well-formedness, in the form used by the
loop theorems. -/
theorem wfadj_closure {g : CityGraph} (hw : g.WFadj) :
    ∀ n, ∀ e' ∈ adjOf g.graph n, e'.neighbor ∈ dkeys g.graph := by
  intro n e' he'
  unfold adjOf dgetD at he'
  cases hg : dget g.graph n with
  | none => rw [hg] at he'; cases he'
  | some es =>
      rw [hg] at he'
      exact hw.2 (n, es) (mem_of_dget_eq_some hg) e' he'

theorem dloopRun_post (g : CityGraph) (start_id end_id : Int) (c : Fin 3) (hw : g.WFadj) :
    LoopPost c start_id end_id g.graph (dloopRun g start_id end_id c) :=
  dloop_post (wfadj_closure hw) _ _ (init_loopInv c start_id end_id g)

theorem dFinish_snd (g : CityGraph) (s1 : DState) (b : Int) :
    (dFinish g s1 b).2 = { g with graph := s1.gd } := by
  unfold dFinish
  dsimp only
  cases dget s1.dd b with
  | none => rfl
  | some d =>
      dsimp only
      by_cases hd : d = ⊤
      · rw [if_pos hd]
      · rw [if_neg hd]
        cases buildPath s1.pd (s1.pd.length + 1) b [] <;> rfl

/-- Analysis of a successful, nonempty-path return of lines 74–84. -/
theorem dFinish_some {g : CityGraph} {s1 : DState} {b : Int} {p : List Int} {t : Totals}
    {g' : CityGraph} (h : dFinish g s1 b = (some (p, t), g')) (hne : p ≠ []) :
    ∃ d path, dget s1.dd b = some d ∧ d ≠ ⊤ ∧
      buildPath s1.pd (s1.pd.length + 1) b [] = some path ∧ p = path.reverse ∧
      t = dgetD s1.td b (0, 0, 0) := by
  unfold dFinish at h
  dsimp only at h
  cases hd : dget s1.dd b with
  | none =>
      rw [hd] at h
      cases h
  | some d =>
      rw [hd] at h
      dsimp only at h
      by_cases hdt : d = ⊤
      · rw [if_pos hdt] at h
        cases h
        exact absurd rfl hne
      · rw [if_neg hdt] at h
        cases hbp : buildPath s1.pd (s1.pd.length + 1) b [] with
        | none => rw [hbp] at h; cases h
        | some path =>
            rw [hbp] at h
            cases h
            exact ⟨d, path, rfl, hdt, rfl, rfl, rfl⟩

theorem dFinish_eq_none {g : CityGraph} {s1 : DState} {b : Int}
    (hd : dget s1.dd b = none) :
    dFinish g s1 b = (none, { g with graph := s1.gd }) := by
  unfold dFinish
  dsimp only
  rw [hd]

theorem dFinish_eq_nopath {g : CityGraph} {s1 : DState} {b : Int} {d : ℕ∞}
    (hd : dget s1.dd b = some d) (hdt : d = ⊤) :
    dFinish g s1 b = (some ([], (0, 0, 0)), { g with graph := s1.gd }) := by
  unfold dFinish
  dsimp only
  rw [hd]
  dsimp only
  rw [if_pos hdt]

theorem dFinish_eq_bfail {g : CityGraph} {s1 : DState} {b : Int} {d : ℕ∞}
    (hd : dget s1.dd b = some d) (hdt : d ≠ ⊤)
    (hbp : buildPath s1.pd (s1.pd.length + 1) b [] = none) :
    dFinish g s1 b = (none, { g with graph := s1.gd }) := by
  unfold dFinish
  dsimp only
  rw [hd]
  dsimp only
  rw [if_neg hdt, hbp]

theorem dFinish_eq_path {g : CityGraph} {s1 : DState} {b : Int} {d : ℕ∞} {path : List Int}
    (hd : dget s1.dd b = some d) (hdt : d ≠ ⊤)
    (hbp : buildPath s1.pd (s1.pd.length + 1) b [] = some path) :
    dFinish g s1 b =
      (some (path.reverse, dgetD s1.td b (0, 0, 0)), { g with graph := s1.gd }) := by
  unfold dFinish
  dsimp only
  rw [hd]
  dsimp only
  rw [if_neg hdt, hbp]

/-- The totals binding at a node with a recorded distance. -/
theorem post_td_bind {c : Fin 3} {start end_id : Int} {gd0 : List (Int × List Edge)}
    {s : DState} (hp : LoopPost c start end_id gd0 s) {n : Int} {d : ℕ∞}
    (hd : dget s.dd n = some d) : dget s.td n = some (dgetD s.td n (0, 0, 0)) := by
  have h1 : (dget s.dd n).isSome := by rw [hd]; rfl
  have h2 := (hp.tddd n).mpr h1
  cases hx : dget s.td n with
  | none => rw [hx] at h2; cases h2
  | some t0 =>
      unfold dgetD
      rw [hx]
      rfl

/-- Any successful nonempty-path return of `find_optimal_path` is a realized
walk from the source to the target whose returned totals are the componentwise
sums of its chosen edges. -/
theorem find_optimal_path_totals {g : CityGraph} {a b : Int} {c : Fin 3}
    (hw : g.WFadj) {p : List Int} {t : Totals} {g' : CityGraph}
    (hr : find_optimal_path g a b c = (some (p, t), g')) (hne : p ≠ []) :
    ∃ es, EdgeChoice g.graph p es ∧ p.head? = some a ∧ p.getLast? = some b ∧
      t = tSum es ∧ tsel t c = wSum c es := by
  rw [find_optimal_path_eq_run] at hr
  have hp := dloopRun_post g a b c hw
  obtain ⟨d, path, hd, hdt, hbp, hpr, ht⟩ := dFinish_some hr hne
  obtain ⟨l, hch⟩ := hp.chains b d hd hdt
  have hpath := buildPath_chain_eq hch hbp
  rw [List.nil_append] at hpath
  subst hpath
  obtain ⟨es, hec, hh, hl, htf, hdf⟩ := chain_to_path hch
  have htb : dget (dloopRun g a b c).td b = some t := by
    rw [ht]
    exact post_td_bind hp hd
  refine ⟨es, ?_, ?_, ?_, htf t htb, ?_⟩
  · rw [hpr]; exact hec
  · rw [hpr]; exact hh
  · rw [hpr]; exact hl
  · rw [htf t htb, tsel_tSum]

theorem tsel_zero (c : Fin 3) : tsel ((0, 0, 0) : Totals) c = 0 := by
  fin_cases c <;> rfl

/-- When source and target both carry adjacency entries, the call returns
without an exception, and its totals are optimal for the selected criterion
among all realized walks between them. -/
theorem find_optimal_path_optimal (g : CityGraph) (a b : Int) (c : Fin 3)
    (hw : g.WFadj) (ha : a ∈ dkeys g.graph) (hb : b ∈ dkeys g.graph) :
    ∃ p t g', find_optimal_path g a b c = (some (p, t), g') ∧
      ∀ q es, EdgeChoice g.graph q es → q.head? = some a → q.getLast? = some b →
        tsel t c ≤ wSum c es := by
  have hp := dloopRun_post g a b c hw
  rw [find_optimal_path_eq_run]
  have hbs : (dget (dloopRun g a b c).dd b).isSome := hp.ddsome b (Or.inl hb)
  cases hd : dget (dloopRun g a b c).dd b with
  | none => rw [hd] at hbs; cases hbs
  | some d =>
      by_cases hdt : d = ⊤
      · refine ⟨[], (0, 0, 0), _, dFinish_eq_nopath hd hdt, ?_⟩
        intro q es _ _ _
        rw [tsel_zero]
        exact Nat.zero_le _
      · obtain ⟨l, hch⟩ := hp.chains b d hd hdt
        have hps : dget (dloopRun g a b c).pd a = some none := hp.pdstart.2 ha
        have hlen := chain_length_le hps hch
        have hbp := chain_buildPath hps hch ((dloopRun g a b c).pd.length + 1) []
          (by omega)
        rw [List.nil_append] at hbp
        refine ⟨l.reverse, dgetD (dloopRun g a b c).td b (0, 0, 0), _,
          dFinish_eq_path hd hdt hbp, ?_⟩
        intro q es hec hh hl
        obtain ⟨es0, hec0, hh0, hl0, htf0, hdf0⟩ := chain_to_path hch
        have htb := post_td_bind hp hd
        have ht0 : dgetD (dloopRun g a b c).td b (0, 0, 0) = tSum es0 :=
          htf0 _ htb
        rw [ht0, tsel_tSum]
        have hbound := post_walk_bound hp hec hh hl
        have hdd : dgetD (dloopRun g a b c).dd b ⊤ = d := by
          unfold dgetD; rw [hd]; rfl
        rw [hdd, hdf0 d hd] at hbound
        exact_mod_cast hbound

/-- A walk between two nodes realized by actual adjacency entries. -/
def ReachableW (gd0 : List (Int × List Edge)) (a b : Int) : Prop :=
  ∃ p es, EdgeChoice gd0 p es ∧ p.head? = some a ∧ p.getLast? = some b

/-- The `NoPath` result `([], (0,0,0))` is returned exactly when the target id
carries a `distances` binding (no `KeyError`) but no realized walk connects
the source to the target — a condition independent of the criterion. -/
theorem find_optimal_path_nopath_iff (g : CityGraph) (a b : Int) (c : Fin 3)
    (hw : g.WFadj) :
    (find_optimal_path g a b c).1 = some ([], (0, 0, 0)) ↔
      ((b ∈ dkeys g.graph ∨ b = a) ∧ ¬ ReachableW g.graph a b) := by
  have hp := dloopRun_post g a b c hw
  rw [find_optimal_path_eq_run]
  constructor
  · intro h
    cases hd : dget (dloopRun g a b c).dd b with
    | none =>
        rw [dFinish_eq_none hd] at h
        cases h
    | some d =>
        have hmem := hp.ddmem b (by rw [hd]; rfl)
        by_cases hdt : d = ⊤
        · refine ⟨hmem, ?_⟩
          rintro ⟨q, es, hec, hh, hl⟩
          obtain ⟨de, hbe, hdet⟩ := post_walk_reach hp hec hh hl
          rw [hd] at hbe
          cases hbe
          exact hdet hdt
        · exfalso
          obtain ⟨l, hch⟩ := hp.chains b d hd hdt
          cases hbp : buildPath (dloopRun g a b c).pd
              ((dloopRun g a b c).pd.length + 1) b [] with
          | none =>
              rw [dFinish_eq_bfail hd hdt hbp] at h
              cases h
          | some path =>
              rw [dFinish_eq_path hd hdt hbp] at h
              have hpl := buildPath_chain_eq hch hbp
              rw [List.nil_append] at hpl
              subst hpl
              obtain ⟨l', rfl⟩ := chain_head hch
              simp at h
  · rintro ⟨hmem, hnr⟩
    have hbs := hp.ddsome b hmem
    cases hd : dget (dloopRun g a b c).dd b with
    | none => rw [hd] at hbs; cases hbs
    | some d =>
        by_cases hdt : d = ⊤
        · rw [dFinish_eq_nopath hd hdt]
        · exfalso
          obtain ⟨l, hch⟩ := hp.chains b d hd hdt
          obtain ⟨es, hec, hh, hl, _, _⟩ := chain_to_path hch
          exact hnr ⟨l.reverse, es, hec, hh, hl⟩

/-! ## The first iteration, mutation, and the degenerate source = target case -/

theorem heapPop_singleton (x : ℕ × Int) : heapPop [x] = some (x, []) := by
  show some (heapMin x [], [x].erase (heapMin x [])) = _
  have h : heapMin x [] = x := rfl
  rw [h, List.erase_cons_head]

theorem dloopRun_self (g : CityGraph) (a : Int) (c : Fin 3) :
    dloopRun g a a c = { dInit g a with heap := [] } := by
  unfold dloopRun
  have hpop : heapPop (dInit g a).heap = some ((0, a), []) := heapPop_singleton _
  have hvalid : ¬ (dInit g a).dmap a < ((0 : ℕ) : ℕ∞) := by simp
  exact dloop_break hpop hvalid rfl

theorem dloopRun_missing (g : CityGraph) (a b : Int) (c : Fin 3)
    (hna : a ∉ dkeys g.graph) (hne : a ≠ b) :
    dloopRun g a b c = { dInit g a with heap := [], gd := g.graph ++ [(a, [])] } := by
  unfold dloopRun
  have hpop : heapPop (dInit g a).heap = some ((0, a), []) := heapPop_singleton _
  have hvalid : ¬ (dInit g a).dmap a < ((0 : ℕ) : ℕ∞) := by simp
  have hgd : dget (dInit g a).gd a = none := dget_eq_none_of_not_mem hna
  have hdd : ddRead (dInit g a).gd a = ([], g.graph ++ [(a, [])]) := by
    unfold ddRead
    rw [hgd]
    rfl
  have hu2 : TargetsIn (targetsOf g.graph) (relaxAll c a 0 (ddRead (dInit g a).gd a).1
      { dInit g a with heap := [], gd := (ddRead (dInit g a).gd a).2 } : DState).gd := by
    rw [relaxAll_gd]
    exact ddRead_targets a (targetsIn_targetsOf g.graph)
  rw [dloop_go hpop hvalid hne hu2]
  have hS : (relaxAll c a 0 (ddRead (dInit g a).gd a).1
      { dInit g a with heap := [], gd := (ddRead (dInit g a).gd a).2 } : DState) =
      { dInit g a with heap := [], gd := g.graph ++ [(a, [])] } := by
    rw [hdd]
    rfl
  have hS2 : heapPop (relaxAll c a 0 (ddRead (dInit g a).gd a).1
      { dInit g a with heap := [], gd := (ddRead (dInit g a).gd a).2 } : DState).heap = none := by
    rw [hS]
    rfl
  rw [dloop_none hS2, hS]

/-- Exact description of the `defaultdict` mutation of the graph store: the
adjacency gains one empty binding at the source id exactly when the source id
has no adjacency entry and differs from the target. -/
theorem find_optimal_path_mutation (g : CityGraph) (a b : Int) (c : Fin 3) (hw : g.WFadj) :
    (find_optimal_path g a b c).2 =
      if a ∈ dkeys g.graph ∨ a = b then g
      else { g with graph := g.graph ++ [(a, [])] } := by
  rw [find_optimal_path_eq_run, dFinish_snd]
  by_cases hab : a = b
  · subst hab
    rw [if_pos (Or.inr rfl), dloopRun_self]
    rfl
  · by_cases ha : a ∈ dkeys g.graph
    · rw [if_pos (Or.inl ha)]
      have hp := dloopRun_post g a b c hw
      rcases hp.gds with hgd | ⟨hnk, _⟩
      · rw [hgd]
      · exact absurd ha hnk
    · rw [if_neg (by tauto), dloopRun_missing g a b c ha hab]

/-- The degenerate case: source = target with at least one incident road
returns the single-node path with zero totals and leaves the store
unchanged. -/
theorem find_optimal_path_self (g : CityGraph) (a : Int) (c : Fin 3)
    (ha : a ∈ dkeys g.graph) :
    find_optimal_path g a a c = (some ([a], (0, 0, 0)), g) := by
  rw [find_optimal_path_eq_run, dloopRun_self]
  have hd : dget ({ dInit g a with heap := [] } : DState).dd a = some 0 :=
    dget_dset_self _ _ _
  have hdt : (0 : ℕ∞) ≠ ⊤ := by simp
  have hpd : dget ({ dInit g a with heap := [] } : DState).pd a = some none := by
    show dget (g.graph.map fun p => (p.1, (none : Option Int))) a = some none
    rw [dget_mapConst]
    have hs := dget_isSome_of_mem ha
    cases hx : dget g.graph a with
    | none => rw [hx] at hs; cases hs
    | some v => rfl
  have hbp : buildPath ({ dInit g a with heap := [] } : DState).pd
      (({ dInit g a with heap := [] } : DState).pd.length + 1) a [] = some [a] := by
    rw [buildPath, hpd]
    rfl
  rw [dFinish_eq_path hd hdt hbp]
  have htd : dgetD ({ dInit g a with heap := [] } : DState).td a (0, 0, 0) = (0, 0, 0) := by
    unfold dgetD
    rw [show dget ({ dInit g a with heap := [] } : DState).td a = some (0, 0, 0) from
      dget_dset_self _ _ _]
    rfl
  rw [htd]
  rfl

/-! ## Symmetric graphs (roads recorded on both endpoints) -/

/-- The reverse twin of an adjacency entry of `u`. -/
def revEdge (u : Int) (e : Edge) : Edge := ⟨u, e.dist, e.time, e.cost⟩

theorem revEdge_w (u : Int) (e : Edge) (c : Fin 3) : (revEdge u e).w c = e.w c := by
  fin_cases c <;> rfl

theorem symm_adj {g : CityGraph} (hs : g.Symm) {u : Int} {e : Edge}
    (he : e ∈ adjOf g.graph u) : revEdge u e ∈ adjOf g.graph e.neighbor := by
  unfold adjOf dgetD at he
  cases hg : dget g.graph u with
  | none => rw [hg] at he; cases he
  | some es =>
      rw [hg] at he
      exact hs (u, es) (mem_of_dget_eq_some hg) e he

theorem edgeChoice_reverse {g : CityGraph} (hs : g.Symm) :
    ∀ {p : List Int} {es : List Edge}, EdgeChoice g.graph p es →
      ∃ es', EdgeChoice g.graph p.reverse es' ∧ ∀ c, wSum c es' = wSum c es := by
  intro p es h
  induction h with
  | single u => exact ⟨[], EdgeChoice.single u, fun c => rfl⟩
  | cons u v e p' es' he hnb hrest ih =>
      obtain ⟨es'', hec, hws⟩ := ih
      have hlast : (v :: p').reverse.getLast? = some v := by
        rw [List.getLast?_reverse]
        rfl
      have hadj : revEdge u e ∈ adjOf g.graph v := by
        rw [← hnb]
        exact symm_adj hs he
      refine ⟨es'' ++ [revEdge u e], ?_, ?_⟩
      · rw [show (u :: v :: p').reverse = (v :: p').reverse ++ [u] from by simp]
        exact edgeChoice_append hec hlast hadj rfl
      · intro c'
        rw [wSum_append, hws c', revEdge_w]
        rw [show wSum c' (e :: es') = e.w c' + wSum c' es' from by simp [wSum]]
        omega

theorem reachableW_symm {g : CityGraph} (hs : g.Symm) {a b : Int}
    (h : ReachableW g.graph a b) : ReachableW g.graph b a := by
  obtain ⟨p, es, hec, hh, hl⟩ := h
  obtain ⟨es', hec', _⟩ := edgeChoice_reverse hs hec
  exact ⟨p.reverse, es', hec', by rw [List.head?_reverse]; exact hl,
    by rw [List.getLast?_reverse]; exact hh⟩

/-- An empty returned path always carries the zero totals. -/
theorem find_optimal_path_empty {g : CityGraph} {a b : Int} {c : Fin 3} (hw : g.WFadj)
    {t : Totals} {g' : CityGraph}
    (h : find_optimal_path g a b c = (some ([], t), g')) : t = (0, 0, 0) := by
  rw [find_optimal_path_eq_run] at h
  have hp := dloopRun_post g a b c hw
  cases hd : dget (dloopRun g a b c).dd b with
  | none => rw [dFinish_eq_none hd] at h; cases h
  | some d =>
      by_cases hdt : d = ⊤
      · rw [dFinish_eq_nopath hd hdt] at h
        cases h
        rfl
      · exfalso
        obtain ⟨l, hch⟩ := hp.chains b d hd hdt
        cases hbp : buildPath (dloopRun g a b c).pd
            ((dloopRun g a b c).pd.length + 1) b [] with
        | none => rw [dFinish_eq_bfail hd hdt hbp] at h; cases h
        | some path =>
            rw [dFinish_eq_path hd hdt hbp] at h
            have hpl := buildPath_chain_eq hch hbp
            rw [List.nil_append] at hpl
            subst hpl
            obtain ⟨l', rfl⟩ := chain_head hch
            simp at h

/-- Symmetry: on a well-formed symmetric graph, the reversed returned path is
a realized walk in the opposite direction, and the two directions agree on the
selected-criterion total (though not necessarily on the other two). -/
theorem find_optimal_path_symm (g : CityGraph) (a b : Int) (c : Fin 3)
    (hw : g.WFadj) (hs : g.Symm) (ha : a ∈ dkeys g.graph) (hb : b ∈ dkeys g.graph)
    {p : List Int} {t : Totals} {gp : CityGraph} {q : List Int} {u : Totals} {gq : CityGraph}
    (hab : find_optimal_path g a b c = (some (p, t), gp))
    (hba : find_optimal_path g b a c = (some (q, u), gq)) :
    (p ≠ [] → ∃ es, EdgeChoice g.graph p.reverse es ∧ p.reverse.head? = some b ∧
      p.reverse.getLast? = some a) ∧ tsel t c = tsel u c := by
  constructor
  · intro hne
    obtain ⟨es, hec, hh, hl, _, _⟩ := find_optimal_path_totals hw hab hne
    obtain ⟨es', hec', _⟩ := edgeChoice_reverse hs hec
    exact ⟨es', hec', by rw [List.head?_reverse]; exact hl,
      by rw [List.getLast?_reverse]; exact hh⟩
  · by_cases hne : p = []
    · subst hne
      have ht := find_optimal_path_empty hw hab
      have hnp : (find_optimal_path g a b c).1 = some ([], (0, 0, 0)) := by
        rw [hab, ht]
      have hnr := ((find_optimal_path_nopath_iff g a b c hw).mp hnp).2
      have hnrb : ¬ ReachableW g.graph b a := fun hr => hnr (reachableW_symm hs hr)
      have hq : q = [] := by
        by_contra hqne
        obtain ⟨es, hec, hh, hl, _, _⟩ := find_optimal_path_totals hw hba hqne
        exact hnrb ⟨q, es, hec, hh, hl⟩
      subst hq
      have hu := find_optimal_path_empty hw hba
      rw [ht, hu]
    · have hqne : q ≠ [] := by
        intro hq
        subst hq
        have hu := find_optimal_path_empty hw hba
        have hnp : (find_optimal_path g b a c).1 = some ([], (0, 0, 0)) := by
          rw [hba, hu]
        have hnrb := ((find_optimal_path_nopath_iff g b a c hw).mp hnp).2
        obtain ⟨es, hec, hh, hl, _, _⟩ := find_optimal_path_totals hw hab hne
        exact hnrb (reachableW_symm hs ⟨p, es, hec, hh, hl⟩)
      obtain ⟨esp, hecp, hhp, hlp, _, hselp⟩ := find_optimal_path_totals hw hab hne
      obtain ⟨esq, hecq, hhq, hlq, _, hselq⟩ := find_optimal_path_totals hw hba hqne
      obtain ⟨esp', hecp', hwsp⟩ := edgeChoice_reverse hs hecp
      obtain ⟨esq', hecq', hwsq⟩ := edgeChoice_reverse hs hecq
      obtain ⟨p1, t1, g1, heq1, hbound1⟩ := find_optimal_path_optimal g a b c hw ha hb
      obtain ⟨q1, u1, g2, heq2, hbound2⟩ := find_optimal_path_optimal g b a c hw hb ha
      have he1 := hab.symm.trans heq1
      cases he1
      have he2 := hba.symm.trans heq2
      cases he2
      have h1 : tsel t c ≤ tsel u c := by
        have := hbound1 q.reverse esq' hecq'
          (by rw [List.head?_reverse]; exact hlq) (by rw [List.getLast?_reverse]; exact hhq)
        rw [hwsq c, ← hselq] at this
        exact this
      have h2 : tsel u c ≤ tsel t c := by
        have := hbound2 p.reverse esp' hecp'
          (by rw [List.head?_reverse]; exact hlp) (by rw [List.getLast?_reverse]; exact hhp)
        rw [hwsp c, ← hselp] at this
        exact this
      omega

/-! ## Criterion-independence of reachability -/

/-- Whether the call reports no path does not depend on the criterion: the
characterization of `find_optimal_path_nopath_iff` mentions only the adjacency
structure. -/
theorem find_optimal_path_reach_indep (g : CityGraph) (a b : Int) (hw : g.WFadj)
    (c c' : Fin 3) (h : (find_optimal_path g a b c).1 = some ([], (0, 0, 0))) :
    (find_optimal_path g a b c').1 = some ([], (0, 0, 0)) :=
  (find_optimal_path_nopath_iff g a b c' hw).mpr
    ((find_optimal_path_nopath_iff g a b c hw).mp h)

/-! ## Unfolding lemmas for the orchestrator -/

theorem dset_fresh {κ ν : Type} [DecidableEq κ] :
    ∀ {d : List (κ × ν)} {k : κ}, k ∉ dkeys d → ∀ v : ν, dset d k v = d ++ [(k, v)] := by
  intro d
  induction d with
  | nil => intro k _ v; rfl
  | cons a t ih =>
      intro k h v
      obtain ⟨a1, a2⟩ := a
      have h1 : k ≠ a1 := fun he => h (by rw [he]; exact List.mem_cons_self _ _)
      have h2 : k ∉ dkeys t := fun hm => h (List.mem_cons_of_mem _ hm)
      unfold dset
      rw [if_neg h1, ih h2 v]
      rfl

theorem runCriteria_cons (g : CityGraph) (sid eid : Int) (name : String) (idx : Fin 3)
    (cs : List (String × Fin 3)) (results : List (String × Route))
    {p : List Int} {t : Totals} {g1 : CityGraph}
    (h : find_optimal_path g sid eid idx = (some (p, t), g1)) :
    runCriteria g sid eid ((name, idx) :: cs) results =
      runCriteria g1 sid eid cs (if p = [] then results else dset results name (p, t)) := by
  conv_lhs => unfold runCriteria
  rw [h]

/-- The `for name, idx in criteria:` loop performs exactly three solver calls,
in the order distance, time, cost, threading the graph store, and records the
nonempty paths under their criterion names in that order. -/
theorem runCriteria_three (g : CityGraph) (sid eid : Int)
    {p0 p1 p2 : List Int} {t0 t1 t2 : Totals} {g0 g1 g2 : CityGraph}
    (h0 : find_optimal_path g sid eid 0 = (some (p0, t0), g0))
    (h1 : find_optimal_path g0 sid eid 1 = (some (p1, t1), g1))
    (h2 : find_optimal_path g1 sid eid 2 = (some (p2, t2), g2)) :
    runCriteria g sid eid criteria [] =
      (some ((if p0 = [] then [] else [("ДЛИНА", (p0, t0))]) ++
             (if p1 = [] then [] else [("ВРЕМЯ", (p1, t1))]) ++
             (if p2 = [] then [] else [("СТОИМОСТЬ", (p2, t2))])), g2) := by
  rw [show criteria = [("ДЛИНА", (0 : Fin 3)), ("ВРЕМЯ", 1), ("СТОИМОСТЬ", 2)] from rfl]
  rw [runCriteria_cons g sid eid _ _ _ _ h0, runCriteria_cons g0 sid eid _ _ _ _ h1,
      runCriteria_cons g1 sid eid _ _ _ _ h2]
  unfold runCriteria
  by_cases hp0 : p0 = [] <;> by_cases hp1 : p1 = [] <;> by_cases hp2 : p2 = [] <;>
    simp [hp0, hp1, hp2, dset]

theorem get_all_resolved (g : CityGraph) (sn en : String) {sid eid : Int}
    (hs : g.get_id_by_name sn = some sid) (he : g.get_id_by_name en = some eid)
    (hs0 : sid ≠ 0) (he0 : eid ≠ 0) :
    get_all_optimal_routes g sn en = runCriteria g sid eid criteria [] := by
  unfold get_all_optimal_routes
  rw [hs, he]
  exact if_neg (by simp [hs0, he0])

theorem get_all_unresolved (g : CityGraph) (sn en : String)
    (h : g.get_id_by_name sn = none ∨ g.get_id_by_name en = none ∨
         g.get_id_by_name sn = some 0 ∨ g.get_id_by_name en = some 0) :
    get_all_optimal_routes g sn en = (some [], g) := by
  unfold get_all_optimal_routes
  rcases h with h | h | h | h
  · rw [h]
  · rw [h]
    cases g.get_id_by_name sn <;> rfl
  · rw [h]
    cases g.get_id_by_name en with
    | none => rfl
    | some e =>
        dsimp only
        exact if_pos (Or.inl rfl)
  · rw [h]
    cases g.get_id_by_name sn with
    | none => rfl
    | some s =>
        dsimp only
        exact if_pos (Or.inr rfl)

/-- When the source id carries an adjacency entry, the threaded graph store
comes out of the criteria loop unchanged. -/
theorem runCriteria_graph_const (sid eid : Int) :
    ∀ (cs : List (String × Fin 3)) (g : CityGraph) (results : List (String × Route)),
      g.WFadj → sid ∈ dkeys g.graph →
      (runCriteria g sid eid cs results).2 = g := by
  intro cs
  induction cs with
  | nil => intro g results _ _; rfl
  | cons hd cs ih =>
      intro g results hw hm
      obtain ⟨name, idx⟩ := hd
      have hmut := find_optimal_path_mutation g sid eid idx hw
      rw [if_pos (Or.inl hm)] at hmut
      unfold runCriteria
      cases hres : find_optimal_path g sid eid idx with
      | mk o g1 =>
          have hg1 : g1 = g := by rw [← hmut, hres]
          subst hg1
          cases o with
          | none => rfl
          | some pt =>
              obtain ⟨p, t⟩ := pt
              exact ih _ _ hw hm

/-! ## Unfolding lemmas for the compromise selector -/

theorem pickRoute_first (routes : List (String × Route)) :
    ∀ (pre : List String) (tag : String) (rest : List String) (key : String) (r : Route),
      (∀ t ∈ pre, ∀ k, dget criterion_map t = some k → dget routes k = none) →
      dget criterion_map tag = some key → dget routes key = some r →
      pickRoute routes (pre ++ tag :: rest) = r := by
  intro pre
  induction pre with
  | nil =>
      intro tag rest key r _ hk hr
      rw [List.nil_append]
      unfold pickRoute
      rw [hk]
      dsimp only
      rw [hr]
  | cons t0 pre ih =>
      intro tag rest key r habs hk hr
      rw [List.cons_append]
      unfold pickRoute
      cases hm : dget criterion_map t0 with
      | none => exact ih tag rest key r (fun t ht => habs t (List.mem_cons_of_mem _ ht)) hk hr
      | some k0 =>
          dsimp only
          rw [habs t0 (List.mem_cons_self _ _) k0 hm]
          exact ih tag rest key r (fun t ht => habs t (List.mem_cons_of_mem _ ht)) hk hr

theorem pickRoute_nomatch (routes : List (String × Route)) :
    ∀ (ts : List String),
      (∀ t ∈ ts, ∀ k, dget criterion_map t = some k → dget routes k = none) →
      pickRoute routes ts = ([], (0, 0, 0)) := by
  intro ts
  induction ts with
  | nil => intro _; rfl
  | cons t0 ts ih =>
      intro habs
      unfold pickRoute
      cases hm : dget criterion_map t0 with
      | none => exact ih fun t ht => habs t (List.mem_cons_of_mem _ ht)
      | some k0 =>
          dsimp only
          rw [habs t0 (List.mem_cons_self _ _) k0 hm]
          exact ih fun t ht => habs t (List.mem_cons_of_mem _ ht)

/-! ## Concrete verification inputs

Concrete runs of `find_optimal_path` are evaluated through the fuel-indexed
twin `findF` and transported by `find_optimal_path_of_findF`. -/

/-- The example graph of the specification: cities 1:"A", 2:"B", 3:"C" and
roads 1-2:(10,5,2), 2-3:(10,5,2), 1-3:(25,1,1). -/
def exGraph : CityGraph :=
  ((((((CityGraph.empty.add_city 1 "A").add_city 2 "B").add_city 3
      "C").add_road 1 2 10 5 2).add_road 2 3 10 5 2).add_road 1 3 25 1 1)

theorem exGraph_wf : exGraph.WFadj := by
  unfold CityGraph.WFadj
  decide

theorem exGraph_symm : exGraph.Symm := by
  unfold CityGraph.Symm
  decide

theorem exGraph_find0 :
    find_optimal_path exGraph 1 3 0 = (some ([1, 2, 3], (20, 10, 4)), exGraph) :=
  @find_optimal_path_of_findF 12 exGraph 1 3 0 _ (by decide)

theorem exGraph_find1 :
    find_optimal_path exGraph 1 3 1 = (some ([1, 3], (25, 1, 1)), exGraph) :=
  @find_optimal_path_of_findF 12 exGraph 1 3 1 _ (by decide)

theorem exGraph_find2 :
    find_optimal_path exGraph 1 3 2 = (some ([1, 3], (25, 1, 1)), exGraph) :=
  @find_optimal_path_of_findF 12 exGraph 1 3 2 _ (by decide)

theorem exGraph_find0_rev :
    find_optimal_path exGraph 3 1 0 = (some ([3, 2, 1], (20, 10, 4)), exGraph) :=
  @find_optimal_path_of_findF 12 exGraph 3 1 0 _ (by decide)

/-- Cities 1 and 2 are registered, but the only road joins 1 to 3, so the
target id 2 never enters the adjacency dictionary. -/
def missingTargetGraph : CityGraph :=
  ((CityGraph.empty.add_city 1 "A").add_city 2 "B").add_road 1 3 1 1 1

/-- A graph whose adjacency dictionary holds the keys 2 and 3 only; querying
from the absent source id 1 exercises the `defaultdict` insertion. -/
def missingSourceGraph : CityGraph := CityGraph.empty.add_road 2 3 1 1 1

theorem missingSourceGraph_find :
    find_optimal_path missingSourceGraph 1 2 0 =
      (some ([], (0, 0, 0)),
        { missingSourceGraph with graph := missingSourceGraph.graph ++ [(1, [])] }) :=
  @find_optimal_path_of_findF 12 missingSourceGraph 1 2 0 _ (by decide)

/-- City "Z" carries the id 0 — truthy-falsy pitfall of line 92. -/
def zeroIdGraph : CityGraph :=
  ((CityGraph.empty.add_city 0 "Z").add_city 1 "A").add_road 0 1 1 1 1

/-- Two disjoint road components: 1-2 and 3-4. -/
def disconnectedGraph : CityGraph :=
  (CityGraph.empty.add_road 1 2 1 1 1).add_road 3 4 1 1 1

theorem disconnectedGraph_wf : disconnectedGraph.WFadj := by
  unfold CityGraph.WFadj
  decide

theorem disconnectedGraph_all (c : Fin 3) :
    find_optimal_path disconnectedGraph 1 3 c = (some ([], (0, 0, 0)), disconnectedGraph) := by
  fin_cases c
  · exact @find_optimal_path_of_findF 12 disconnectedGraph 1 3 0 _ (by decide)
  · exact @find_optimal_path_of_findF 12 disconnectedGraph 1 3 1 _ (by decide)
  · exact @find_optimal_path_of_findF 12 disconnectedGraph 1 3 2 _ (by decide)

/-- A symmetric graph with two distance-tied routes between 1 and 4 whose
time totals differ: 1-2-4 (distance 10, time 2) and 1-3-4 (distance 10,
time 100). -/
def asymGraph : CityGraph :=
  (((CityGraph.empty.add_road 1 2 1 1 1).add_road 2 4 9 1 1).add_road
      1 3 9 50 1).add_road 3 4 1 50 1

theorem asymGraph_symm : asymGraph.Symm := by
  unfold CityGraph.Symm
  decide

theorem asymGraph_fwd :
    find_optimal_path asymGraph 1 4 0 = (some ([1, 2, 4], (10, 2, 2)), asymGraph) :=
  @find_optimal_path_of_findF 12 asymGraph 1 4 0 _ (by decide)

theorem asymGraph_bwd :
    find_optimal_path asymGraph 4 1 0 = (some ([4, 3, 1], (10, 100, 2)), asymGraph) :=
  @find_optimal_path_of_findF 12 asymGraph 4 1 0 _ (by decide)

/-- A single registered city with no roads: its id never enters the adjacency
dictionary. -/
def lonelyGraph : CityGraph := CityGraph.empty.add_city 1 "A"

/-! ## The claims -/

/-- C1: whenever `find_optimal_path` returns a nonempty path, the returned
3-tuple of totals equals the componentwise sum of the (distance, time, cost)
weights of actual adjacency edges joining consecutive ids of the returned
path, and its selected-criterion component equals the accumulated cost of
that same path under the selected criterion — the auxiliary components
describe that path, not independently minimized sums. -/
theorem C1_totals_are_edge_sums {g : CityGraph} {a b : Int} {c : Fin 3}
    (hw : g.WFadj) {p : List Int} {t : Totals} {g' : CityGraph}
    (hr : find_optimal_path g a b c = (some (p, t), g')) (hne : p ≠ []) :
    ∃ es, EdgeChoice g.graph p es ∧ p.head? = some a ∧ p.getLast? = some b ∧
      t = tSum es ∧ tsel t c = wSum c es :=
  find_optimal_path_totals hw hr hne

theorem C1_witness :
    exGraph.WFadj ∧
    find_optimal_path exGraph 1 3 0 = (some ([1, 2, 3], (20, 10, 4)), exGraph) ∧
    ([1, 2, 3] : List Int) ≠ [] ∧
    ∃ es, EdgeChoice exGraph.graph [1, 2, 3] es ∧
      ([1, 2, 3] : List Int).head? = some 1 ∧ ([1, 2, 3] : List Int).getLast? = some 3 ∧
      ((20, 10, 4) : Totals) = tSum es ∧ tsel ((20, 10, 4) : Totals) 0 = wSum 0 es :=
  ⟨exGraph_wf, exGraph_find0, by decide,
    C1_totals_are_edge_sums exGraph_wf exGraph_find0 (by decide)⟩

/-- C2: for every well-formed graph and every source and target present in the
graph, the distance-criterion call returns a result whose totals.distance is
at most the distance sum of every simple realized path between the pair. -/
theorem C2_distance_optimal (g : CityGraph) (a b : Int) (hw : g.WFadj)
    (ha : a ∈ dkeys g.graph) (hb : b ∈ dkeys g.graph) :
    ∃ p t g', find_optimal_path g a b 0 = (some (p, t), g') ∧
      ∀ q es, q.Nodup → EdgeChoice g.graph q es → q.head? = some a →
        q.getLast? = some b → t.1 ≤ wSum 0 es := by
  obtain ⟨p, t, g', hf, hopt⟩ := find_optimal_path_optimal g a b 0 hw ha hb
  exact ⟨p, t, g', hf, fun q es _ hec hh hl => hopt q es hec hh hl⟩

theorem C2_witness :
    exGraph.WFadj ∧ (1 : Int) ∈ dkeys exGraph.graph ∧ (3 : Int) ∈ dkeys exGraph.graph ∧
    ∃ p t g', find_optimal_path exGraph 1 3 0 = (some (p, t), g') ∧
      ∀ q es, q.Nodup → EdgeChoice exGraph.graph q es → q.head? = some 1 →
        q.getLast? = some 3 → t.1 ≤ wSum 0 es :=
  ⟨exGraph_wf, by decide, by decide,
    C2_distance_optimal exGraph 1 3 exGraph_wf (by decide) (by decide)⟩

/-- C3: refuted as stated — when the target id has no adjacency entry, the
lookup `distances[end_id]` on line 74 raises an uncaught `KeyError` instead of
returning the NoPath signal: on the graph with cities 1 and 2 and the single
road 1-3, the query from 1 to 2 crashes (result `none`). -/
theorem C3_missing_target_crashes :
    find_optimal_path missingTargetGraph 1 2 0 = (none, missingTargetGraph) ∧
    (2 : Int) ∉ dkeys missingTargetGraph.graph :=
  ⟨@find_optimal_path_of_findF 12 missingTargetGraph 1 2 0 _ (by decide), by decide⟩

theorem C4_counterexample :
    (find_optimal_path missingSourceGraph 1 2 0).2 ≠ missingSourceGraph := by
  rw [missingSourceGraph_find]
  decide

/-- C4 (amended): a query never touches `cities` or `name_to_id`, and leaves
the adjacency structure unchanged — except that `find_optimal_path` from a
source id absent from the adjacency dictionary (and different from the
target) appends an empty adjacency binding for it, through the `defaultdict`
read of line 61.  When the source id is present the store is completely
unchanged, and `get_all_optimal_routes` leaves the store unchanged unless the
resolved source id lacks an adjacency entry. -/
theorem C4_mutation_characterized (g : CityGraph) (a b : Int) (c : Fin 3) (hw : g.WFadj) :
    ((find_optimal_path g a b c).2 =
       if a ∈ dkeys g.graph ∨ a = b then g
       else { g with graph := g.graph ++ [(a, [])] }) ∧
    ((find_optimal_path g a b c).2.cities = g.cities ∧
     (find_optimal_path g a b c).2.name_to_id = g.name_to_id) ∧
    (a ∈ dkeys g.graph → (find_optimal_path g a b c).2 = g) ∧
    (∀ sn en, (get_all_optimal_routes g sn en).2 = g ∨
       ∃ sid, g.get_id_by_name sn = some sid ∧ sid ∉ dkeys g.graph) := by
  have hmut := find_optimal_path_mutation g a b c hw
  refine ⟨hmut, ⟨?_, ?_⟩, ?_, ?_⟩
  · rw [hmut]
    by_cases h : a ∈ dkeys g.graph ∨ a = b
    · rw [if_pos h]
    · rw [if_neg h]
  · rw [hmut]
    by_cases h : a ∈ dkeys g.graph ∨ a = b
    · rw [if_pos h]
    · rw [if_neg h]
  · intro hm
    rw [hmut, if_pos (Or.inl hm)]
  · intro sn en
    cases hs : g.get_id_by_name sn with
    | none =>
        left
        rw [get_all_unresolved g sn en (Or.inl hs)]
    | some sid =>
        by_cases hs0 : sid = 0
        · left
          subst hs0
          rw [get_all_unresolved g sn en (Or.inr (Or.inr (Or.inl hs)))]
        · cases he : g.get_id_by_name en with
          | none =>
              left
              rw [get_all_unresolved g sn en (Or.inr (Or.inl he))]
          | some eid =>
              by_cases he0 : eid = 0
              · left
                subst he0
                rw [get_all_unresolved g sn en (Or.inr (Or.inr (Or.inr he)))]
              · by_cases hmem : sid ∈ dkeys g.graph
                · left
                  rw [get_all_resolved g sn en hs he hs0 he0]
                  exact runCriteria_graph_const sid eid criteria g [] hw hmem
                · right
                  exact ⟨sid, rfl, hmem⟩

theorem C4_witness :
    exGraph.WFadj ∧ (find_optimal_path exGraph 1 3 0).2 = exGraph :=
  ⟨exGraph_wf, (C4_mutation_characterized exGraph 1 3 0 exGraph_wf).2.2.1 (by decide)⟩

theorem C5_counterexample :
    zeroIdGraph.get_id_by_name "Z" = some 0 ∧ zeroIdGraph.get_id_by_name "A" = some 1 ∧
    ReachableW zeroIdGraph.graph 0 1 ∧
    get_all_optimal_routes zeroIdGraph "Z" "A" = (some [], zeroIdGraph) :=
  ⟨by decide, by decide,
    ⟨[0, 1], [⟨1, 1, 1, 1⟩], EdgeChoice.cons 0 1 ⟨1, 1, 1, 1⟩ [] []
      (by decide) rfl (EdgeChoice.single 1), rfl, rfl⟩,
   by decide⟩

/-- C5 (amended): the orchestrator returns the empty route set when either
name is unresolved — but also when a resolved id equals `0`, which the
truthiness test `if not start_id or not end_id` of line 92 conflates with
absence.  In every other case it performs exactly three solver calls in the
fixed order distance=0, time=1, cost=2, threading the store between calls,
and records each nonempty-path result under its criterion name in that order,
omitting results with an empty path. -/
theorem C5_route_set (g : CityGraph) (sn en : String) :
    ((g.get_id_by_name sn = none ∨ g.get_id_by_name en = none ∨
        g.get_id_by_name sn = some 0 ∨ g.get_id_by_name en = some 0) →
      get_all_optimal_routes g sn en = (some [], g)) ∧
    (∀ sid eid, g.get_id_by_name sn = some sid → g.get_id_by_name en = some eid →
      sid ≠ 0 → eid ≠ 0 →
      ∀ p0 t0 g0 p1 t1 g1 p2 t2 g2,
        find_optimal_path g sid eid 0 = (some (p0, t0), g0) →
        find_optimal_path g0 sid eid 1 = (some (p1, t1), g1) →
        find_optimal_path g1 sid eid 2 = (some (p2, t2), g2) →
        get_all_optimal_routes g sn en =
          (some ((if p0 = [] then [] else [("ДЛИНА", (p0, t0))]) ++
                 (if p1 = [] then [] else [("ВРЕМЯ", (p1, t1))]) ++
                 (if p2 = [] then [] else [("СТОИМОСТЬ", (p2, t2))])), g2)) := by
  constructor
  · exact get_all_unresolved g sn en
  · intro sid eid hs he hs0 he0 p0 t0 g0 p1 t1 g1 p2 t2 g2 h0 h1 h2
    rw [get_all_resolved g sn en hs he hs0 he0]
    exact runCriteria_three g sid eid h0 h1 h2

theorem C5_witness :
    get_all_optimal_routes exGraph "A" "C" =
      (some [("ДЛИНА", ([1, 2, 3], (20, 10, 4))), ("ВРЕМЯ", ([1, 3], (25, 1, 1))),
             ("СТОИМОСТЬ", ([1, 3], (25, 1, 1)))], exGraph) :=
  ((C5_route_set exGraph "A" "C").2 1 3 (by decide) (by decide) (by decide) (by decide)
    _ _ _ _ _ _ _ _ _ exGraph_find0 exGraph_find1 exGraph_find2).trans (by decide)

/-- C6: the compromise selector scans the priority order left to right and
returns the route of the first tag that maps to a criterion present in the
route set, silently skipping unmapped tags; if no listed tag yields an entry
(in particular on an empty route set) it returns the NoPath value
`([], (0, 0, 0))`. -/
theorem C6_compromise_selection (routes : List (String × Route)) (priorities : String) :
    (∀ pre tag rest key r, priorityOrder priorities = pre ++ tag :: rest →
      (∀ t ∈ pre, ∀ k, dget criterion_map t = some k → dget routes k = none) →
      dget criterion_map tag = some key → dget routes key = some r →
      find_compromise_route routes priorities = r) ∧
    ((∀ t ∈ priorityOrder priorities, ∀ k, dget criterion_map t = some k →
        dget routes k = none) →
      find_compromise_route routes priorities = ([], (0, 0, 0))) := by
  constructor
  · intro pre tag rest key r hsplit habs hk hr
    unfold find_compromise_route
    rw [hsplit]
    exact pickRoute_first routes pre tag rest key r habs hk hr
  · intro habs
    exact pickRoute_nomatch routes _ habs

theorem C6_witness :
    find_compromise_route [("ВРЕМЯ", ([1, 3], (25, 1, 1)))] "(В,Д)" = ([1, 3], (25, 1, 1)) ∧
    find_compromise_route [] "(В,Д)" = ([], (0, 0, 0)) := by
  constructor
  · exact (C6_compromise_selection [("ВРЕМЯ", ([1, 3], (25, 1, 1)))] "(В,Д)").1
      [] "В" ["Д"] "ВРЕМЯ" ([1, 3], (25, 1, 1)) (by decide)
      (by intro t ht; cases ht) (by decide) (by decide)
  · exact (C6_compromise_selection [] "(В,Д)").2 (fun t _ k _ => rfl)

/-- C7: on a well-formed graph, if the solver completes on all three criteria
and the distance-criterion call reports no path, then the time- and
cost-criterion calls for the same pair report no path as well. -/
theorem C7_reachability_consistency (g : CityGraph) (a b : Int) (hw : g.WFadj)
    (_hc : ∀ c : Fin 3, (find_optimal_path g a b c).1 ≠ none)
    (h0 : (find_optimal_path g a b 0).1 = some ([], (0, 0, 0))) :
    (find_optimal_path g a b 1).1 = some ([], (0, 0, 0)) ∧
    (find_optimal_path g a b 2).1 = some ([], (0, 0, 0)) :=
  ⟨find_optimal_path_reach_indep g a b hw 0 1 h0,
   find_optimal_path_reach_indep g a b hw 0 2 h0⟩

theorem C7_witness :
    (find_optimal_path disconnectedGraph 1 3 1).1 = some ([], (0, 0, 0)) ∧
    (find_optimal_path disconnectedGraph 1 3 2).1 = some ([], (0, 0, 0)) := by
  refine C7_reachability_consistency disconnectedGraph 1 3 disconnectedGraph_wf ?_ ?_
  · intro c
    rw [disconnectedGraph_all c]
    exact fun h => by cases h
  · rw [disconnectedGraph_all 0]

/-- C8: the worked example — on the graph with cities 1:"A", 2:"B", 3:"C" and
roads 1-2:(10,5,2), 2-3:(10,5,2), 1-3:(25,1,1), the query from "A" to "C"
yields the distance route 1-2-3 with totals (20,10,4) and the time and cost
routes 1-3 with totals (25,1,1); the compromise under the priority string
"(В,Д)" (time, then distance) is the direct route with totals (25,1,1). -/
theorem C8_example :
    get_all_optimal_routes exGraph "A" "C" =
      (some [("ДЛИНА", ([1, 2, 3], (20, 10, 4))), ("ВРЕМЯ", ([1, 3], (25, 1, 1))),
             ("СТОИМОСТЬ", ([1, 3], (25, 1, 1)))], exGraph) ∧
    find_compromise_route
      [("ДЛИНА", ([1, 2, 3], (20, 10, 4))), ("ВРЕМЯ", ([1, 3], (25, 1, 1))),
       ("СТОИМОСТЬ", ([1, 3], (25, 1, 1)))] "(В,Д)" = ([1, 3], (25, 1, 1)) := by
  constructor
  · have hs : exGraph.get_id_by_name "A" = some 1 := by decide
    have he : exGraph.get_id_by_name "C" = some 3 := by decide
    rw [get_all_resolved exGraph "A" "C" hs he (by decide) (by decide),
        runCriteria_three exGraph 1 3 exGraph_find0 exGraph_find1 exGraph_find2]
    decide
  · decide

theorem C9_counterexample :
    asymGraph.Symm ∧
    find_optimal_path asymGraph 1 4 0 = (some ([1, 2, 4], (10, 2, 2)), asymGraph) ∧
    find_optimal_path asymGraph 4 1 0 = (some ([4, 3, 1], (10, 100, 2)), asymGraph) ∧
    ((10, 2, 2) : Totals) ≠ ((10, 100, 2) : Totals) :=
  ⟨asymGraph_symm, asymGraph_fwd, asymGraph_bwd, by decide⟩

/-- C9 (amended): on a well-formed symmetric graph, with both ids present, the
reversed returned path is a valid realized walk from B to A, and the two
directions agree on the selected criterion's total — but the other two
components of the totals can differ when distance-tied routes exist. -/
theorem C9_symmetry (g : CityGraph) (a b : Int) (c : Fin 3)
    (hw : g.WFadj) (hs : g.Symm) (ha : a ∈ dkeys g.graph) (hb : b ∈ dkeys g.graph)
    {p : List Int} {t : Totals} {gp : CityGraph} {q : List Int} {u : Totals} {gq : CityGraph}
    (hab : find_optimal_path g a b c = (some (p, t), gp))
    (hba : find_optimal_path g b a c = (some (q, u), gq)) :
    (p ≠ [] → ∃ es, EdgeChoice g.graph p.reverse es ∧ p.reverse.head? = some b ∧
      p.reverse.getLast? = some a) ∧ tsel t c = tsel u c :=
  find_optimal_path_symm g a b c hw hs ha hb hab hba

theorem C9_witness :
    exGraph.WFadj ∧ exGraph.Symm ∧
    ((([1, 2, 3] : List Int) ≠ [] →
        ∃ es, EdgeChoice exGraph.graph ([1, 2, 3] : List Int).reverse es ∧
          ([1, 2, 3] : List Int).reverse.head? = some 3 ∧
          ([1, 2, 3] : List Int).reverse.getLast? = some 1) ∧
      tsel ((20, 10, 4) : Totals) 0 = tsel ((20, 10, 4) : Totals) 0) :=
  ⟨exGraph_wf, exGraph_symm,
    C9_symmetry exGraph 1 3 0 exGraph_wf exGraph_symm (by decide) (by decide)
      exGraph_find0 exGraph_find0_rev⟩

theorem C10_counterexample :
    find_optimal_path lonelyGraph 1 1 0 = (none, lonelyGraph) :=
  @find_optimal_path_of_findF 12 lonelyGraph 1 1 0 _ (by decide)

/-- C10 (amended): when the id carries an adjacency entry, a source-equals-
target query returns the single-node path `[id]` with totals `(0, 0, 0)` and
leaves the store unchanged; an id without an adjacency entry instead crashes
on the `prev[current]` lookup of line 81 (see the counterexample). -/
theorem C10_self_query (g : CityGraph) (a : Int) (c : Fin 3)
    (ha : a ∈ dkeys g.graph) :
    find_optimal_path g a a c = (some ([a], (0, 0, 0)), g) :=
  find_optimal_path_self g a c ha

theorem C10_witness :
    (1 : Int) ∈ dkeys exGraph.graph ∧
    find_optimal_path exGraph 1 1 0 = (some ([1], (0, 0, 0)), exGraph) :=
  ⟨by decide, C10_self_query exGraph 1 0 (by decide)⟩
